import Mathlib

/-!
A verification development for the representation/content engine of the
Subversion BDB filesystem (`reps-strings.c`).

The source file stores byte streams either as literal strings (fulltext
representations) or as chains of binary-delta windows against another
representation (delta representations), and serves random-access reads by
reconstructing fulltext from the chain.

Shallow embedding conventions:
  * keys of the `strings` and `reps` tables are natural numbers; the tables
    themselves are functions `Nat → Option _` together with a `next` counter
    from which fresh keys are drawn (the bdb tables live outside this
    repository's sources; their operations are modelled from the spec,
    section 4.A);
  * transaction ids are natural numbers; `Option` models NULL pointers;
  * the svndiff codec (parser, window composition, window application,
    binary-diff producer) lives in `libsvn_delta`, outside the sources;
    it is modelled from the spec (sections 4.C and 6): a stored chunk
    string is represented by the single delta window it decodes to, a
    window's instruction stream is a list of copy-from-source and
    insert-new-data instructions, and window composition resolves the
    newer window's source copies through the older window's instructions
    under the documented alignment assumption that all delta windows are
    the same size and aligned at the same offset;
  * MD5 (an apr routine, outside the sources) is modelled from the spec as
    an abstract collision-free digest: `svn_md5 bs = 1 :: bs`; the all-zero
    digest is the "always matches" sentinel honoured by
    `svn_md5_digests_match`;
  * errors abort the enclosing trail, so an `Except.error` result models
    "no change was committed"; `Err.fuelOut` is a model-only error standing
    for non-termination of the C loops on ill-formed (cyclic or
    zero-progress) data.
-/

namespace SvnFS

/-- Abstract error codes surfaced by the engine (spec section 6).
`corrupt` carries the static message prefix and the rep key interpolated
into the message. -/
inductive Err where
  | corrupt (msg : String) (rep_key : Nat)
  | general
  | repChanged
  | repNotMutable (rep_key : Nat)
  | md5Absent
  | notFound (key : Nat)
  | fuelOut
deriving DecidableEq, Repr

/-- One instruction of a delta window: copy a range of the window's source
view, or insert new data.  Modelled from the spec (section 6): the
instruction stream of a window is executable against a source buffer.
Offsets of `copySrc` are relative to the start of the source view. -/
inductive TOp where
  | copySrc (off len : Nat)
  | insert (bytes : List Nat)
deriving DecidableEq, Repr

/-- A delta window (spec section 6): source view `(sview_offset, sview_len)`,
target view length `tview_len`, count of source-copy ops `src_ops`, and the
instruction stream. -/
structure Window where
  sview_offset : Nat
  sview_len : Nat
  tview_len : Nat
  src_ops : Nat
  ops : List TOp
deriving DecidableEq, Repr

/-- `svn_fs__rep_delta_chunk_t`: one link of a delta rep's chain. -/
structure Chunk where
  version : Nat
  string_key : Nat
  size : Nat
  offset : Nat
  rep_key : Nat
  checksum : List Nat
deriving DecidableEq, Repr

/-- The two representation kinds, with their payloads
(`rep->contents.fulltext.string_key` may be NULL). -/
inductive RepContents where
  | fulltext (string_key : Option Nat)
  | delta (chunks : List Chunk)
deriving DecidableEq, Repr

/-- `svn_fs__representation_t`: `txn_id` present means mutable under that
transaction; `checksum` is the stored MD5 of the reconstructed content. -/
structure Rep where
  txn_id : Option Nat
  checksum : List Nat
  contents : RepContents
deriving DecidableEq, Repr

/-- A value of the `strings` table: either raw bytes (fulltexts), or the
serialized svndiff payload of one delta window.  The svndiff serialization
is modelled from the spec: a chunk's stored string contains the post-header
bytes of exactly one window, represented here by the window it decodes to
together with its serialized byte length. -/
inductive StrVal where
  | bytes (bs : List Nat)
  | diff (w : Window) (nbytes : Nat)
deriving DecidableEq, Repr

/-- The backing store: the `strings` and `reps` tables and a counter from
which fresh keys are allocated.  Modelled from the spec, section 4.A. -/
structure FS where
  strings : Nat → Option StrVal
  reps : Nat → Option Rep
  next : Nat

/-- MD5, modelled from the spec as an abstract collision-free digest whose
outputs are never the all-zero sentinel. -/
def svn_md5 (bs : List Nat) : List Nat := 1 :: bs

/-- The all-zero "not yet computed / always accepts" checksum sentinel. -/
def zeroDigest : List Nat := List.replicate 16 0

/-- `svn_md5_empty_string_digest`: digest of the empty content. -/
def svn_md5_empty_string_digest : List Nat := svn_md5 []

def allZero (d : List Nat) : Bool := d.all (· = 0)

/-- `svn_md5_digests_match`: an all-zero digest matches anything. -/
def svn_md5_digests_match (d1 d2 : List Nat) : Bool :=
  allZero d1 || allZero d2 || d1 == d2

/-! ### Instruction-stream semantics -/

/-- Number of target bytes an instruction produces. -/
def TOp.outLen : TOp → Nat
  | .copySrc _ len => len
  | .insert bs => bs.length

/-- Execute one instruction against a source buffer. -/
def TOp.run : TOp → List Nat → List Nat
  | .copySrc off len, src => (src.drop off).take len
  | .insert bs, _ => bs

/-- Execute an instruction stream against a source buffer
(`svn_txdelta__apply_instructions` without the output cap). -/
def runOps : List TOp → List Nat → List Nat
  | [], _ => []
  | op :: rest, src => op.run src ++ runOps rest src

/-- Total target length of an instruction stream. -/
def opsOutLen : List TOp → Nat
  | [] => 0
  | op :: rest => op.outLen + opsOutLen rest

/-- Number of source-copy instructions. -/
def countSrc : List TOp → Nat
  | [] => 0
  | .copySrc _ _ :: rest => countSrc rest + 1
  | .insert _ :: rest => countSrc rest

/-- Bound condition for one instruction against a source of length `n`. -/
def TOp.bound : TOp → Nat → Prop
  | .copySrc off len, n => off + len ≤ n
  | .insert _, _ => True

instance (op : TOp) (n : Nat) : Decidable (op.bound n) := by
  cases op with
  | copySrc off len => exact inferInstanceAs (Decidable (off + len ≤ n))
  | insert bs => exact inferInstanceAs (Decidable True)

/-- Every copy instruction stays inside a source of length `n`. -/
def opsBounded (ops : List TOp) (n : Nat) : Prop :=
  ∀ op ∈ ops, op.bound n

instance (ops : List TOp) (n : Nat) : Decidable (opsBounded ops n) :=
  inferInstanceAs (Decidable (∀ op ∈ ops, op.bound n))

/-- The slice `bs[off : off+len]`. -/
def sliceL (bs : List Nat) (off len : Nat) : List Nat :=
  (bs.drop off).take len

/-! ### The string-store and rep-store adapters (spec section 4.A) -/

def updStr (fs : FS) (k : Nat) (v : Option StrVal) : FS :=
  { fs with strings := fun k' => if k' = k then v else fs.strings k' }

def updRep (fs : FS) (k : Nat) (v : Option Rep) : FS :=
  { fs with reps := fun k' => if k' = k then v else fs.reps k' }

/-- `svn_fs__bdb_string_read`: read up to `len` bytes at `offset`; a read
count of zero signals end-of-string.  Reading a string that holds svndiff
payload as raw bytes is not modelled (the engine never does it). -/
def string_read_bytes (fs : FS) (k : Nat) (offset len : Nat) :
    Except Err (List Nat) :=
  match fs.strings k with
  | some (.bytes bs) => .ok (sliceL bs offset len)
  | some (.diff _ _) => .error .general
  | none => .error (.notFound k)

/-- `svn_fs__bdb_string_size`. -/
def string_size (fs : FS) (k : Nat) : Except Err Nat :=
  match fs.strings k with
  | some (.bytes bs) => .ok bs.length
  | some (.diff _ n) => .ok n
  | none => .error (.notFound k)

/-- `svn_fs__bdb_string_append`: with an absent key, allocate a fresh key
holding `bs` (appending zero bytes with an absent key allocates an empty
string); with a present key, append to the stored bytes. -/
def string_append (fs : FS) (key? : Option Nat) (bs : List Nat) : FS × Nat :=
  match key? with
  | some k =>
      let old := match fs.strings k with
        | some (.bytes o) => o
        | _ => []
      (updStr fs k (some (.bytes (old ++ bs))), k)
  | none =>
      ({ updStr fs fs.next (some (.bytes bs)) with next := fs.next + 1 }, fs.next)

/-- `svn_fs__bdb_string_delete`. -/
def string_delete (fs : FS) (k : Nat) : FS := updStr fs k none

/-- Delete the strings associated with `keys` (`delete_strings`). -/
def delete_strings (fs : FS) (keys : List Nat) : FS :=
  keys.foldl string_delete fs

/-- `svn_fs__bdb_read_rep`. -/
def read_rep (fs : FS) (k : Nat) : Except Err Rep :=
  match fs.reps k with
  | some r => .ok r
  | none => .error (.notFound k)

/-- `svn_fs__bdb_write_rep`. -/
def write_rep (fs : FS) (k : Nat) (rep : Rep) : FS := updRep fs k (some rep)

/-- `svn_fs__bdb_write_new_rep`: store `rep` under a fresh key. -/
def write_new_rep (fs : FS) (rep : Rep) : FS × Nat :=
  ({ updRep fs fs.next (some rep) with next := fs.next + 1 }, fs.next)

/-- `svn_fs__bdb_delete_rep`. -/
def delete_rep (fs : FS) (k : Nat) : FS := updRep fs k none

/-- Fetch the single delta window decoded from a chunk's stored string.
Modelled from the spec (section 6): the reader synthesizes the 4-byte
`"SVN" || version` header and streams the stored payload into the svndiff
parser, which emits exactly one window. -/
def getWindow (fs : FS) (k : Nat) : Except Err Window :=
  match fs.strings k with
  | some (.diff w _) => .ok w
  | some (.bytes _) => .error .general
  | none => .error (.notFound k)

/-! ### Helper functions of the source file -/

/-- `rep_is_mutable`: non-zero iff `rep` is mutable under `txn_id`. -/
def rep_is_mutable (rep : Rep) (txn_id : Nat) : Bool :=
  match rep.txn_id with
  | none => false
  | some t => t = txn_id

/-- `make_fulltext_rep`: a fulltext rep referencing `str_key`; a `none`
checksum initializes the rep with the all-zero (always successful)
checksum. -/
def make_fulltext_rep (str_key : Option Nat) (txn_id : Option Nat)
    (checksum : Option (List Nat)) : Rep :=
  { txn_id := txn_id
    checksum := match checksum with
      | some d => d
      | none => zeroDigest
    contents := .fulltext str_key }

/-- `delta_string_keys`: the string keys of a delta rep's chunks. -/
def delta_string_keys (rep : Rep) : Except Err (List Nat) :=
  match rep.contents with
  | .delta chunks => .ok (chunks.map (·.string_key))
  | .fulltext _ => .error .general

/-! ### Window composition (spec section 4.C)

`svn_txdelta__compose_windows` lives in `libsvn_delta`, outside the
sources, and is modelled from the spec: under the documented alignment
assumption (all delta windows are the same size and aligned at the same
offset, so the newer window's source view starts at the older window's
target view start), composition resolves each source-copy of the newer
window `B` through the instruction stream of the older window `A`,
producing a window against `A`'s own source view. -/

/-- Slice `[off, off+len)` of one instruction's target output, as an
instruction over the same source. -/
def TOp.sliceOut : TOp → Nat → Nat → TOp
  | .copySrc o _, off, len => .copySrc (o + off) len
  | .insert bs, off, len => .insert ((bs.drop off).take len)

/-- Slice `[off, off+len)` of an instruction stream's target output, as an
instruction stream over the same source. -/
def sliceOps : List TOp → Nat → Nat → List TOp
  | [], _, _ => []
  | op :: rest, off, len =>
      if len = 0 then []
      else if op.outLen ≤ off then sliceOps rest (off - op.outLen) len
      else
        let take1 := min (op.outLen - off) len
        op.sliceOut off take1 :: sliceOps rest 0 (len - take1)

/-- Resolve the newer stream `bops`' source copies through the older
stream `aops`. -/
def resolveOps (aops : List TOp) : List TOp → List TOp
  | [] => []
  | .copySrc off len :: rest => sliceOps aops off len ++ resolveOps aops rest
  | .insert bs :: rest => .insert bs :: resolveOps aops rest

/-- The composed window of older `a` and newer `b` (spec section 4.C): its
source view is `a`'s source view, its target view is `b`'s, and its
instructions are `b`'s with source copies resolved through `a`. -/
def composeWin (a b : Window) : Window :=
  { sview_offset := a.sview_offset
    sview_len := a.sview_len
    tview_len := b.tview_len
    src_ops := countSrc (resolveOps a.ops b.ops)
    ops := resolveOps a.ops b.ops }

/-- `svn_txdelta__compose_ctx_t`. -/
structure ComposeCtx where
  use_second : Bool
  sview_offset : Nat
  sview_len : Nat
deriving DecidableEq, Repr

/-- `svn_txdelta__compose_windows` (modelled from the spec): `a?` is the
incoming (older) window, `b` the accumulated (newer) one.  When `b` does
not touch source data at all (`src_ops = 0`) the oracle signals
`use_second` and the newer window stands with its source view overwritten
from the context; otherwise it returns the composition.  A missing older
window with a source-dependent newer one cannot be composed (the handler
aborts there). -/
def compose_windows (a? : Option Window) (b : Window) :
    Option Window × ComposeCtx :=
  if b.src_ops = 0 then (none, ⟨true, 0, 0⟩)
  else
    match a? with
    | some a => (some (composeWin a b), ⟨false, 0, 0⟩)
    | none => (none, ⟨false, 0, 0⟩)

/-- `struct compose_handler_baton` (window pools are not modelled). -/
structure CHB where
  window : Option Window
  done : Bool
  init : Bool
deriving DecidableEq, Repr

/-- `compose_handler`: if the baton is empty, copy the window into it;
otherwise combine the incoming window with the one in the baton.  `none`
models the NULL window the svndiff handler pushes at end of stream. -/
def compose_handler (w? : Option Window) (cb : CHB) : Except Err CHB :=
  if ¬cb.init ∧ w?.isNone then .ok cb
  else
    match cb.window with
    | some cw =>
        match compose_windows w? cw with
        | (some composite, _) =>
            .ok { cb with window := some composite, init := false }
        | (none, ctx) =>
            if ctx.use_second then
              .ok { cb with
                      window := some { cw with
                                         sview_offset := ctx.sview_offset
                                         sview_len := ctx.sview_len }
                      done := true
                      init := false }
            else
              .error .general
    | none =>
        match w? with
        | some w =>
            .ok { cb with
                    window := some w
                    done := (w.sview_len = 0 || w.src_ops = 0)
                    init := false }
        | none => .ok { cb with done := true, init := false }

/-- `get_one_window`: read the delta window of `chunks[cur]` and push it at
the composition handler (followed by the parser's end-of-stream NULL);
a missing chunk pushes NULL directly. -/
def get_one_window (fs : FS) (cb : CHB) (chunks : List Chunk) (cur : Nat) :
    Except Err CHB :=
  let cb := { cb with init := true }
  match chunks[cur]? with
  | none => compose_handler none cb
  | some c => do
      let w ← getWindow fs c.string_key
      let cb ← compose_handler (some w) cb
      compose_handler none cb

/-- The inner loop of `rep_undeltify_range`: feed the `cur`-th window of
each collected rep, outermost first, stopping when the composition is
done. -/
def feedAll (fs : FS) (deltas : List (List Chunk)) (cur : Nat) (cb : CHB) :
    Except Err CHB :=
  match deltas with
  | [] => .ok cb
  | chunks :: rest =>
      if cb.done then .ok cb
      else do
        let cb ← get_one_window fs cb chunks cur
        feedAll fs rest cur cb

/-- `svn_txdelta__apply_instructions`: execute the window against the
source buffer, producing at most `cap` target bytes. -/
def applyInstructions (ops : List TOp) (src : List Nat) (cap : Nat) :
    List Nat :=
  (runOps ops src).take cap

/-! ### The range reader (spec section 4.D) -/

/-- `get_chunk_offset`: index of the chunk of `chunks` containing
`rep_offset` together with the relative offset within that chunk, or
`none` when the offset is beyond the end of the represented data. -/
def get_chunk_offset (chunks : List Chunk) (rep_offset : Nat) :
    Option (Nat × Nat) :=
  match chunks with
  | [] => none
  | c :: rest =>
      if rep_offset < c.offset + c.size then some (0, rep_offset - c.offset)
      else (get_chunk_offset rest rep_offset).map fun p => (p.1 + 1, p.2)

/-- The chain walk of `rep_read_range`: starting from a delta rep (whose
chunk list is `chunks` and whose key is `rep_key`, with `cur` a valid chunk
index), verify that `chunks[cur]` has the version of `chunks[0]`, follow
`chunks[cur].rep_key`, and continue while the next rep is a delta with
more than `cur` chunks.  Returns the collected chunk lists and the rep the
walk stopped at: `some rep` for a fulltext, `none` for a short delta
("don't use source data").  The fuel stands for the unbounded C loop. -/
def walk (fs : FS) (cur : Nat) :
    Nat → Nat → List Chunk → List (List Chunk) →
    Except Err (List (List Chunk) × Option Rep)
  | 0, _, _, _ => .error .fuelOut
  | fuel + 1, rep_key, chunks, acc =>
      match chunks[0]?, chunks[cur]? with
      | some first_chunk, some chunk =>
          if first_chunk.version ≠ chunk.version then
            .error (.corrupt
              "diff version inconsistencies in representation" rep_key)
          else do
            let acc := acc ++ [chunks]
            let next ← read_rep fs chunk.rep_key
            match next.contents with
            | .delta chunks' =>
                if cur < chunks'.length then
                  walk fs cur fuel chunk.rep_key chunks' acc
                else .ok (acc, none)
            | .fulltext _ => .ok (acc, some next)
      | _, _ => .error .general

/-- The source buffer read for a composed window in
`rep_undeltify_range`: when a base fulltext is at hand and the composed
window references source data (`sview_len > 0` and `src_ops > 0`), read
`sview_len` bytes at `sview_offset` from the fulltext string; otherwise
use an empty buffer. -/
def windowSource (fs : FS) (ft? : Option Nat) (w : Window) :
    Except Err (List Nat) :=
  match ft? with
  | some fk =>
      if 0 < w.sview_len ∧ 0 < w.src_ops then
        string_read_bytes fs fk w.sview_offset w.sview_len
      else pure []
  | none => pure []

/-- The outer loop of `rep_undeltify_range`: per iteration, compose the
`cur`-th windows of the chain, read the source slice the composed window
references from the base fulltext (string key `ft?`; absent or unneeded
source reads an empty buffer), apply the composed window, discard the
first `offset` bytes on the first iteration, and accumulate until `len`
bytes are produced or the chain is exhausted.  The fuel stands for the
unbounded C loop (which would not terminate on zero-progress data). -/
def undeltify_loop (fs : FS) (deltas : List (List Chunk)) (ft? : Option Nat)
    (len : Nat) :
    Nat → Nat → Nat → List Nat → Except Err (List Nat)
  | 0, _, _, _ => .error .fuelOut
  | fuel + 1, cur, offset, acc => do
      let cb ← feedAll fs deltas cur ⟨none, false, false⟩
      match cb.window with
      | none => .ok acc
      | some w => do
          let source_buf ← windowSource fs ft? w
          let out := applyInstructions w.ops source_buf
            (len - acc.length + offset)
          let bytes := out.drop offset
          let acc := acc ++ bytes
          if len ≤ acc.length then .ok acc
          else undeltify_loop fs deltas ft? len fuel (cur + 1) 0 acc

/-- `rep_undeltify_range`: undeltify a range of data starting at chunk
`cur`, relative offset `offset` within it, producing at most `len`
bytes. -/
def rep_undeltify_range (fs : FS) (deltas : List (List Chunk))
    (ft? : Option Nat) (cur offset len : Nat) : Except Err (List Nat) :=
  undeltify_loop fs deltas ft? len (len + 1) cur offset []

/-- `rep_read_range`: copy up to `len` bytes starting at `offset` from the
string represented via `rep_key`; the returned list's length is the number
of bytes actually copied.  `fuel` bounds the chain walk (a model artifact:
the C loop is unbounded and would cycle forever on a cyclic chain). -/
def rep_read_range (fs : FS) (fuel : Nat) (rep_key : Nat)
    (offset len : Nat) : Except Err (List Nat) := do
  let rep ← read_rep fs rep_key
  match rep.contents with
  | .fulltext sk? =>
      match sk? with
      | some sk => string_read_bytes fs sk offset len
      | none => .error .general
  | .delta chunks =>
      match get_chunk_offset chunks offset with
      | none => .ok []
      | some (cur, chunk_offset) => do
          let (deltas, stop?) ← walk fs cur fuel rep_key chunks []
          let ft? := stop?.bind fun r =>
            match r.contents with
            | .fulltext sk? => sk?
            | .delta _ => none
          rep_undeltify_range fs deltas ft? cur chunk_offset len

/-! ### Retrieving data -/

/-- `svn_fs__rep_contents_size`: string length for a fulltext; last chunk
offset plus size for a delta (the source asserts a non-empty chunk list;
the model surfaces `general` there). -/
def svn_fs__rep_contents_size (fs : FS) (rep_key : Nat) : Except Err Nat := do
  let rep ← read_rep fs rep_key
  match rep.contents with
  | .fulltext sk? =>
      match sk? with
      | some sk => string_size fs sk
      | none => .error .general
  | .delta chunks =>
      match chunks.getLast? with
      | some last_chunk => .ok (last_chunk.offset + last_chunk.size)
      | none => .error .general

/-- `svn_fs__rep_contents_checksum`. -/
def svn_fs__rep_contents_checksum (fs : FS) (rep_key : Nat) :
    Except Err (List Nat) := do
  let rep ← read_rep fs rep_key
  .ok rep.checksum

/-- The `SVN_MAX_OBJECT_SIZE` limit (a platform `size_t` bound). -/
def SVN_MAX_OBJECT_SIZE : Nat := 2 ^ 64 - 1

/-- `svn_fs__rep_contents`: read the entire contents as one buffer,
then independently verify the result: a short read and a recomputed-MD5
mismatch against the (re-read) rep record are both corruption. -/
def svn_fs__rep_contents (fs : FS) (fuel : Nat) (rep_key : Nat) :
    Except Err (List Nat) := do
  let contents_size ← svn_fs__rep_contents_size fs rep_key
  if SVN_MAX_OBJECT_SIZE < contents_size then .error .general
  else do
    let data ← rep_read_range fs fuel rep_key 0 contents_size
    if data.length ≠ contents_size then
      .error (.corrupt "svn_fs__rep_contents: failure reading rep" rep_key)
    else do
      let checksum := svn_md5 data
      let rep ← read_rep fs rep_key
      if svn_md5_digests_match checksum rep.checksum then .ok data
      else
        .error (.corrupt "svn_fs__rep_contents: checksum mismatch on rep"
          rep_key)

/-! ### The read stream (spec section 4.E) -/

/-- `struct rep_read_baton`: the running MD5 context is modelled by the
list of bytes fed to it so far. -/
structure RepReadBaton where
  rep_key : Option Nat
  offset : Nat
  md5_bytes : List Nat
  size : Nat
  checksum_finalized : Bool
deriving DecidableEq, Repr

/-- `rep_read_get_baton`: the rep's fulltext size is fetched at stream
creation and defines the last-byte boundary for checksum verification. -/
def rep_read_get_baton (fs : FS) (rep_key? : Option Nat) :
    Except Err RepReadBaton := do
  let size ←
    match rep_key? with
    | some k => svn_fs__rep_contents_size fs k
    | none => pure 0
  .ok { rep_key := rep_key?, offset := 0, md5_bytes := [], size := size
        checksum_finalized := false }

/-- `txn_body_read_rep`: one read of up to `len` bytes through the read
stream.  A null rep key reads zero bytes at offset zero and raises
`RepChanged` past it; otherwise the range reader is invoked, the running
MD5 is updated, and when the cumulative offset first reaches the size the
digest is finalized and compared against the freshly re-read rep
record's checksum. -/
def txn_body_read_rep (fs : FS) (fuel : Nat) (b : RepReadBaton)
    (len : Nat) : Except Err (List Nat × RepReadBaton) :=
  match b.rep_key with
  | some k => do
      let bytes ← rep_read_range fs fuel k b.offset len
      let b := { b with offset := b.offset + bytes.length }
      if b.checksum_finalized then .ok (bytes, b)
      else
        let b := { b with md5_bytes := b.md5_bytes ++ bytes }
        if b.offset = b.size then do
          let checksum := svn_md5 b.md5_bytes
          let b := { b with checksum_finalized := true }
          let rep ← read_rep fs k
          if svn_md5_digests_match checksum rep.checksum then .ok (bytes, b)
          else
            .error (.corrupt "txn_body_read_rep: checksum mismatch on rep" k)
        else .ok (bytes, b)
  | none =>
      if 0 < b.offset then .error .repChanged
      else .ok ([], b)

/-- Pull the read stream to end-of-stream (a read returning zero bytes),
concatenating the chunks; this is how both deltification and
undeltification consume their input streams. -/
def read_stream_loop (fs : FS) (fuel : Nat) :
    Nat → RepReadBaton → List Nat → Except Err (List Nat)
  | 0, _, _ => .error .fuelOut
  | pulls + 1, b, acc => do
      let (bytes, b') ← txn_body_read_rep fs fuel b b.size
      if bytes.isEmpty then .ok acc
      else read_stream_loop fs fuel pulls b' (acc ++ bytes)

/-- Open a read stream on `rep_key` and read it to end-of-stream. -/
def rep_read_all (fs : FS) (fuel : Nat) (rep_key : Nat) :
    Except Err (List Nat) := do
  let b ← rep_read_get_baton fs (some rep_key)
  read_stream_loop fs fuel (b.size + 2) b []

/-! ### Mutable representations -/

/-- `svn_fs__get_mutable_rep`: return the base key if its rep is mutable
under `txn_id`; otherwise allocate a fresh empty fulltext rep owned by
`txn_id`, backed by a newly allocated empty string, with the
empty-string digest as its checksum.  (`none` models both a NULL and an
empty base key.) -/
def svn_fs__get_mutable_rep (fs : FS) (rep_key? : Option Nat)
    (txn_id : Nat) : Except Err (FS × Nat) := do
  match rep_key? with
  | some rep_key => do
      let rep ← read_rep fs rep_key
      if rep_is_mutable rep txn_id then .ok (fs, rep_key)
      else mkFresh fs txn_id
  | none => mkFresh fs txn_id
where
  /-- The fallthrough path: allocate an empty string and a new rep. -/
  mkFresh (fs : FS) (txn_id : Nat) : Except Err (FS × Nat) := do
    let (fs, new_str) := string_append fs none []
    let rep := make_fulltext_rep (some new_str) (some txn_id)
      (some svn_md5_empty_string_digest)
    let (fs, new_rep_key) := write_new_rep fs rep
    .ok (fs, new_rep_key)

/-- `rep_write`: append `buf` onto the string represented via `rep_key`.
NOTE (faithful to the source): when the rep is not mutable under `txn_id`
the source constructs a `SVN_ERR_FS_REP_NOT_MUTABLE` error with
`svn_error_createf` but does not return it, so the mutability check has
no effect and the append proceeds; `txn_id` is therefore unused on the
fulltext path. -/
def rep_write (fs : FS) (rep_key : Nat) (buf : List Nat) (txn_id : Nat) :
    Except Err FS := do
  let rep ← read_rep fs rep_key
  match rep.contents with
  | .fulltext sk? =>
      let (fs, _) := string_append fs sk? buf
      .ok fs
  | .delta _ =>
      .error (.corrupt "rep_write: rep both mutable and non-fulltext"
        rep_key)

/-! ### Deltified storage (spec section 4.E) -/

/-- One window produced by the binary-diff producer (`svn_txdelta` /
`svn_txdelta_to_svndiff`, outside the sources): the decoded window
together with the length of its serialized svndiff bytes (after the
4-byte header, which `write_svndiff_strings` strips).  The producer is an
oracle; its output is a parameter of the deltifier. -/
structure ProdWindow where
  w : Window
  svndiff_len : Nat
deriving DecidableEq, Repr

/-- `window_write_t`: per-window record kept by the deltifier. -/
structure WindowWrite where
  key : Nat
  svndiff_len : Nat
  text_off : Nat
  text_len : Nat
deriving DecidableEq, Repr

/-- The window loop of `svn_fs__rep_deltify`: each produced window is
written to its own fresh string in the `strings` table and recorded. -/
def writeWindows : FS → Nat → List ProdWindow → FS × List WindowWrite
  | fs, _, [] => (fs, [])
  | fs, tview_off, pw :: rest =>
      let k := fs.next
      let fsW := { updStr fs k (some (.diff pw.w pw.svndiff_len)) with
                     next := fs.next + 1 }
      let r := writeWindows fsW (tview_off + pw.w.tview_len) rest
      (r.1, ⟨k, pw.svndiff_len, tview_off, pw.w.tview_len⟩ :: r.2)

/-- The total serialized svndiff size of the produced windows. -/
def diffsizeOf (wws : List WindowWrite) : Nat :=
  (wws.map (·.svndiff_len)).sum

/-- The chunks of the replacement delta rep built by the deltifier. -/
def deltifyChunks (wws : List WindowWrite) (ver : Nat) (source : Nat)
    (digest : List Nat) : List Chunk :=
  wws.map fun ww =>
    { version := ver, string_key := ww.key, size := ww.text_len
      offset := ww.text_off, rep_key := source, checksum := digest }

/-- The tail of `svn_fs__rep_deltify` once the space check has passed:
build the new delta rep from the recorded windows, write it at the target
key, and delete the original strings. -/
def finishDeltify (fs : FS) (target source : Nat) (orig_keys : List Nat)
    (wws : List WindowWrite) (ver : Nat) (digest old_checksum : List Nat) :
    Except Err FS :=
  let new_rep : Rep :=
    { txn_id := none, checksum := old_checksum
      contents := .delta (deltifyChunks wws ver source digest) }
  .ok (delete_strings (write_rep fs target new_rep) orig_keys)

/-- `svn_fs__rep_deltify`: deltify `target` against `source`.  The binary
diff producer is an oracle (outside the sources); its outputs — the window
list `pws`, the svndiff version byte `ver` and the optional MD5 digest —
are parameters.  Faithful to the source: the self-deltification check
comes first; both reps are then read in full through read streams (which
verify their checksums at end-of-stream); each window is persisted to a
fresh string; a missing producer digest raises
`SVN_ERR_DELTA_MD5_CHECKSUM_ABSENT`; when the old rep was a fulltext and
the total svndiff size is not strictly smaller than the old string, the
new strings are deleted again and the deltification is a silent no-op;
otherwise the target's rep record is atomically replaced by a delta rep
that carries the old rep's checksum, and the old strings are deleted. -/
def svn_fs__rep_deltify (fs : FS) (fuel : Nat) (target source : Nat)
    (pws : List ProdWindow) (ver : Nat) (digest? : Option (List Nat)) :
    Except Err FS := do
  if target = source then
    .error (.corrupt
      "svn_fs__rep_deltify: attempt to deltify a representation against itself"
      target)
  else do
    let _ ← rep_read_all fs fuel source
    let _ ← rep_read_all fs fuel target
    let (fs', wws) := writeWindows fs 0 pws
    match digest? with
    | none => .error .md5Absent
    | some digest => do
        let old_rep ← read_rep fs' target
        match old_rep.contents with
        | .fulltext sk? => do
            let str_key ←
              match sk? with
              | some sk => pure sk
              | none => .error .general
            let old_size ← string_size fs' str_key
            if old_size ≤ diffsizeOf wws then
              .ok (delete_strings fs' (wws.map (·.key)))
            else
              finishDeltify fs' target source [str_key] wws ver digest
                old_rep.checksum
        | .delta chunks =>
            finishDeltify fs' target source (chunks.map (·.string_key))
              wws ver digest old_rep.checksum

/-- `svn_fs__rep_undeltify`: materialize a delta rep back to fulltext.
A fulltext rep is a no-op.  The content is read through a read stream
(whose end-of-stream check verifies the stored checksum) while being
appended into a freshly allocated string and fed to a running MD5; the
digest is verified against the rep's checksum; then the rep record is
replaced by a fulltext rep built with a NULL checksum (so the new record
carries the all-zero sentinel), and the old chunk strings are deleted. -/
def svn_fs__rep_undeltify (fs : FS) (fuel : Nat) (rep_key : Nat) :
    Except Err FS := do
  let rep ← read_rep fs rep_key
  match rep.contents with
  | .fulltext _ => .ok fs
  | .delta chunks => do
      let orig_keys := chunks.map (·.string_key)
      let content ← rep_read_all fs fuel rep_key
      let (fs, new_key) := string_append fs none content
      let digest := svn_md5 content
      if ¬svn_md5_digests_match rep.checksum digest then
        .error (.corrupt "svn_fs__rep_undeltify: checksum mismatch on rep"
          rep_key)
      else
        let rep' := make_fulltext_rep (some new_key) none none
        .ok (delete_strings (write_rep fs rep_key rep') orig_keys)

/-! ## Well-formed representations and their reconstructed contents

The data-model invariants of spec section 3, phrased as an inductive
relation `Reconstructs fs k C d`: the representation stored under `k`
reconstructs to the byte string `C`, through a delta chain of depth `d`.
The conditions on each delta rep's chunks and windows are the spec's
invariants 1-6 plus the documented window-alignment assumption (the
comment above `get_chunk_offset`: all delta windows are the same size and
aligned at the same offset, so a window's source view starts at the source
rep's same-index chunk offset). -/

/-- Chunks are offset-contiguous from `base` with positive sizes
(spec invariant 4). -/
def contig : List Chunk → Nat → Prop
  | [], _ => True
  | c :: rest, base => c.offset = base ∧ 0 < c.size ∧ contig rest (base + c.size)

instance instDecContig : (chunks : List Chunk) → (base : Nat) →
    Decidable (contig chunks base)
  | [], _ => .isTrue trivial
  | c :: rest, base =>
      have : Decidable (contig rest (base + c.size)) :=
        instDecContig rest (base + c.size)
      inferInstanceAs
        (Decidable (c.offset = base ∧ 0 < c.size ∧ contig rest (base + c.size)))

/-- Total number of fulltext bytes covered by a chunk list. -/
def totalLen (chunks : List Chunk) : Nat := (chunks.map (·.size)).sum

/-- All chunks carry the version byte of the first chunk. -/
def sameVersion : List Chunk → Prop
  | [] => True
  | c0 :: rest => ∀ c ∈ rest, c.version = c0.version

instance (chunks : List Chunk) : Decidable (sameVersion chunks) := by
  cases chunks with
  | nil => exact .isTrue trivial
  | cons c0 rest =>
      exact inferInstanceAs (Decidable (∀ c ∈ rest, c.version = c0.version))

/-- The chunk list of the rep stored under `k`, when it is a delta rep. -/
def srcShapeOf (fs : FS) (k : Nat) : Option (List Chunk) :=
  match fs.reps k with
  | some r =>
      match r.contents with
      | .delta cs => some cs
      | .fulltext _ => none
  | none => none

/-- Alignment of a window against the source rep's chunk list at chunk
index `j` (the documented aligned-windows assumption): the window's
source view starts at the source's same-index chunk offset and stays
inside that chunk; a window whose source rep has no chunk at `j` copies
no source data. -/
def alignOK (shape : Option (List Chunk)) (j : Nat) (w : Window) : Prop :=
  match shape with
  | some cs =>
      (∀ cj, cs[j]? = some cj →
        w.sview_offset = cj.offset ∧
        w.sview_offset + w.sview_len ≤ cj.offset + cj.size) ∧
      (cs[j]? = none → w.src_ops = 0)
  | none => True

/-- The conditions on the `j`-th chunk `c` of a delta rep over source
content `S` (of shape `shape`): its string decodes to a window whose
`src_ops` field counts its source copies, whose copies stay inside its
source view, whose output length is the chunk size, whose source view
lies inside `S`, whose application to its source slice yields the chunk's
segment `seg` of the reconstructed content, and which is aligned with the
source's chunks. -/
def chunkOK (fs : FS) (S : List Nat) (shape : Option (List Chunk))
    (j : Nat) (c : Chunk) (seg : List Nat) : Prop :=
  ∃ w, getWindow fs c.string_key = .ok w ∧
    w.src_ops = countSrc w.ops ∧
    opsBounded w.ops w.sview_len ∧
    opsOutLen w.ops = c.size ∧
    w.sview_offset + w.sview_len ≤ S.length ∧
    runOps w.ops (sliceL S w.sview_offset w.sview_len) = seg ∧
    alignOK shape j w

/-- The conditions on a whole delta rep: a non-empty, contiguous,
version-uniform chunk list whose chunk windows decompose the content `C`
(of length `totalLen chunks`) over the source content `S`. -/
def RepOK (fs : FS) (shape : Option (List Chunk)) (S : List Nat)
    (chunks : List Chunk) (C : List Nat) : Prop :=
  chunks ≠ [] ∧ contig chunks 0 ∧ sameVersion chunks ∧
  C.length = totalLen chunks ∧
  ∀ j c, chunks[j]? = some c →
    chunkOK fs S shape j c (sliceL C c.offset c.size)

/-- The rep stored under `k` reconstructs to content `C` through a chain
of depth `d` (spec invariant 3 guarantees such a finite depth). -/
inductive Reconstructs (fs : FS) : Nat → List Nat → Nat → Prop
  | fulltext (k : Nat) (rep : Rep) (sk : Nat) (bs : List Nat)
      (hrep : fs.reps k = some rep)
      (hcts : rep.contents = .fulltext (some sk))
      (hstr : fs.strings sk = some (.bytes bs)) :
      Reconstructs fs k bs 0
  | delta (k : Nat) (rep : Rep) (chunks : List Chunk) (srcKey : Nat)
      (S C : List Nat) (d : Nat)
      (hrep : fs.reps k = some rep)
      (hcts : rep.contents = .delta chunks)
      (hsrc : ∀ c ∈ chunks, c.rep_key = srcKey)
      (hS : Reconstructs fs srcKey S d)
      (hok : RepOK fs (srcShapeOf fs srcKey) S chunks C) :
      Reconstructs fs k C (d + 1)

/-- The state `rep_read_range`'s walk hands to `rep_undeltify_range`:
`deltas` is the list of collected chunk lists (outermost first), `ft?`
the base fulltext's string key (`none` when the walk stopped at a short
delta), and `C` the content of the outermost rep.  `cur` is the chunk
index the walk ran at. -/
inductive ChainView (fs : FS) (cur : Nat) :
    List (List Chunk) → Option Nat → List Nat → Prop
  | full (chunks : List Chunk) (fk : Nat) (F C : List Nat)
      (hok : RepOK fs none F chunks C)
      (hstr : fs.strings fk = some (.bytes F))
      (hcur : cur < chunks.length) :
      ChainView fs cur [chunks] (some fk) C
  | short (chunks cs : List Chunk) (S C : List Nat)
      (hok : RepOK fs (some cs) S chunks C)
      (hshort : cs.length ≤ cur)
      (hcur : cur < chunks.length) :
      ChainView fs cur [chunks] none C
  | cons (chunks cs : List Chunk) (rest : List (List Chunk))
      (ft? : Option Nat) (S C : List Nat)
      (hok : RepOK fs (some cs) S chunks C)
      (hcur : cur < chunks.length)
      (hrest : ChainView fs cur (cs :: rest) ft? S) :
      ChainView fs cur (chunks :: cs :: rest) ft? C

/-- A composed window together with a source choice that makes it produce
the target bytes `T`: exactly what one iteration of the undeltify loop
needs. -/
def WinYields (fs : FS) (ft? : Option Nat) (w : Window) (T : List Nat) :
    Prop :=
  ∃ src, windowSource fs ft? w = .ok src ∧ runOps w.ops src = T

/-! ## Lemmas about instruction streams -/

theorem runOps_append (xs ys : List TOp) (src : List Nat) :
    runOps (xs ++ ys) src = runOps xs src ++ runOps ys src := by
  induction xs with
  | nil => simp [runOps]
  | cons op rest ih => simp [runOps, ih]

theorem TOp.run_length (op : TOp) (src : List Nat)
    (h : op.bound src.length) : (op.run src).length = op.outLen := by
  cases op with
  | copySrc o l =>
      simp only [TOp.run, TOp.outLen, TOp.bound] at *
      simp only [List.length_take, List.length_drop]
      omega
  | insert bs => simp [TOp.run, TOp.outLen]

theorem opsBounded_cons {op : TOp} {rest : List TOp} {n : Nat}
    (h : opsBounded (op :: rest) n) :
    op.bound n ∧ opsBounded rest n := by
  constructor
  · exact h op (List.mem_cons_self op rest)
  · intro o ho
    exact h o (List.mem_cons_of_mem op ho)

theorem runOps_length (ops : List TOp) (src : List Nat)
    (h : opsBounded ops src.length) :
    (runOps ops src).length = opsOutLen ops := by
  induction ops with
  | nil => simp [runOps, opsOutLen]
  | cons op rest ih =>
      obtain ⟨h1, h2⟩ := opsBounded_cons h
      simp [runOps, opsOutLen, TOp.run_length op src h1, ih h2]

theorem TOp.run_take (op : TOp) (Y : List Nat) (n : Nat)
    (h : op.bound n) : op.run (Y.take n) = op.run Y := by
  cases op with
  | copySrc o l =>
      simp only [TOp.run, TOp.bound] at *
      rw [List.drop_take, List.take_take]
      congr 1
      omega
  | insert bs => rfl

theorem runOps_take (ops : List TOp) (Y : List Nat) (n : Nat)
    (h : opsBounded ops n) : runOps ops (Y.take n) = runOps ops Y := by
  induction ops with
  | nil => rfl
  | cons op rest ih =>
      obtain ⟨h1, h2⟩ := opsBounded_cons h
      simp [runOps, TOp.run_take op Y n h1, ih h2]

theorem runOps_indep (ops : List TOp) (h : countSrc ops = 0)
    (s s' : List Nat) : runOps ops s = runOps ops s' := by
  induction ops with
  | nil => rfl
  | cons op rest ih =>
      cases op with
      | copySrc o l => simp [countSrc] at h
      | insert bs =>
          simp only [countSrc] at h
          simp [runOps, TOp.run, ih h]

/-- Two source slices of the same start agree under a bounded stream as
long as both are at least as long as the bound. -/
theorem runOps_slice_absorb (ops : List TOp) (Y : List Nat) (n m1 m2 : Nat)
    (h : opsBounded ops n) (h1 : n ≤ m1) (h2 : n ≤ m2) :
    runOps ops (Y.take m1) = runOps ops (Y.take m2) := by
  have hb1 : opsBounded ops m1 := by
    intro op hop
    have := h op hop
    cases op with
    | copySrc o l => simp only [TOp.bound] at *; omega
    | insert bs => trivial
  have hb2 : opsBounded ops m2 := by
    intro op hop
    have := h op hop
    cases op with
    | copySrc o l => simp only [TOp.bound] at *; omega
    | insert bs => trivial
  rw [runOps_take ops Y m1 hb1, runOps_take ops Y m2 hb2]

theorem TOp.sliceOut_run (op : TOp) (src : List Nat) (off take1 : Nat)
    (hb : op.bound src.length) (ht : take1 ≤ op.outLen - off) :
    (op.sliceOut off take1).run src = ((op.run src).drop off).take take1 := by
  cases op with
  | copySrc o l =>
      simp only [TOp.sliceOut, TOp.run, TOp.outLen, TOp.bound] at *
      rw [List.drop_take, List.drop_drop, List.take_take]
      congr 1
      omega
  | insert bs => rfl

theorem runOps_sliceOps (ops : List TOp) (src : List Nat)
    (h : opsBounded ops src.length) (off len : Nat) :
    runOps (sliceOps ops off len) src
      = ((runOps ops src).drop off).take len := by
  induction ops generalizing off len with
  | nil => simp [sliceOps, runOps]
  | cons op rest ih =>
      obtain ⟨h1, h2⟩ := opsBounded_cons h
      have hlen : (op.run src).length = op.outLen := TOp.run_length op src h1
      by_cases h0 : len = 0
      · simp [sliceOps, h0, runOps]
      · by_cases hoff : op.outLen ≤ off
        · rw [show sliceOps (op :: rest) off len
              = sliceOps rest (off - op.outLen) len by
                simp [sliceOps, h0, hoff]]
          rw [ih h2]
          have hdrop : (op.run src ++ runOps rest src).drop off
              = (runOps rest src).drop (off - op.outLen) := by
            rw [List.drop_append_eq_append_drop, hlen,
              List.drop_eq_nil_of_le (by omega), List.nil_append]
          simp [runOps, hdrop]
        · push_neg at hoff
          rw [show sliceOps (op :: rest) off len
              = op.sliceOut off (min (op.outLen - off) len)
                :: sliceOps rest 0 (len - min (op.outLen - off) len) by
                simp only [sliceOps, h0, if_neg (by omega : ¬op.outLen ≤ off)]
                simp]
          rw [runOps]
          rw [ih h2]
          have hdrop : (op.run src ++ runOps rest src).drop off
              = (op.run src).drop off ++ runOps rest src := by
            rw [List.drop_append_eq_append_drop, hlen,
              Nat.sub_eq_zero_of_le (by omega), List.drop_zero]
          have hlen2 : ((op.run src).drop off).length = op.outLen - off := by
            rw [List.length_drop, hlen]
          rw [show runOps (op :: rest) src = op.run src ++ runOps rest src
              from rfl, hdrop, List.take_append_eq_append_take, hlen2]
          congr 1
          · rw [TOp.sliceOut_run op src off (min (op.outLen - off) len) h1
              (by omega)]
            rcases Nat.le_total len (op.outLen - off) with hle | hle
            · rw [Nat.min_eq_right hle]
            · rw [Nat.min_eq_left hle]
              rw [show List.take (op.outLen - off) ((op.run src).drop off)
                  = (op.run src).drop off by
                    rw [← hlen2]; exact List.take_length _]
              rw [List.take_of_length_le (by rw [hlen2]; exact hle)]
          · simp only [List.drop_zero]
            congr 1
            omega

theorem sliceOps_bounded (ops : List TOp) (n : Nat)
    (h : opsBounded ops n) (off len : Nat) :
    opsBounded (sliceOps ops off len) n := by
  induction ops generalizing off len with
  | nil => intro op hop; simp [sliceOps] at hop
  | cons op rest ih =>
      obtain ⟨h1, h2⟩ := opsBounded_cons h
      by_cases h0 : len = 0
      · intro o ho; simp [sliceOps, h0] at ho
      · by_cases hoff : op.outLen ≤ off
        · rw [show sliceOps (op :: rest) off len
              = sliceOps rest (off - op.outLen) len by
                simp [sliceOps, h0, hoff]]
          exact ih h2 (off - op.outLen) len
        · rw [show sliceOps (op :: rest) off len
              = op.sliceOut off (min (op.outLen - off) len)
                :: sliceOps rest 0 (len - min (op.outLen - off) len) by
                simp only [sliceOps, h0, if_neg hoff]
                simp]
          intro o ho
          rcases List.mem_cons.mp ho with rfl | hmem
          · cases op with
            | copySrc o' l =>
                simp only [TOp.sliceOut, TOp.bound, TOp.outLen] at *
                omega
            | insert bs => trivial
          · exact ih h2 0 (len - min (op.outLen - off) len) o hmem

theorem runOps_resolveOps (A B : List TOp) (src : List Nat)
    (h : opsBounded A src.length) :
    runOps (resolveOps A B) src = runOps B (runOps A src) := by
  induction B with
  | nil => rfl
  | cons op rest ih =>
      cases op with
      | copySrc o l =>
          rw [show resolveOps A (.copySrc o l :: rest)
              = sliceOps A o l ++ resolveOps A rest from rfl]
          rw [runOps_append, runOps_sliceOps A src h o l, ih]
          rfl
      | insert bs =>
          rw [show resolveOps A (.insert bs :: rest)
              = .insert bs :: resolveOps A rest from rfl]
          simp [runOps, TOp.run, ih]

theorem resolveOps_bounded (A B : List TOp) (n : Nat)
    (h : opsBounded A n) : opsBounded (resolveOps A B) n := by
  induction B with
  | nil => intro o ho; simp [resolveOps] at ho
  | cons op rest ih =>
      cases op with
      | copySrc o' l =>
          intro o ho
          rw [show resolveOps A (.copySrc o' l :: rest)
              = sliceOps A o' l ++ resolveOps A rest from rfl] at ho
          rcases List.mem_append.mp ho with hm | hm
          · exact sliceOps_bounded A n h o' l o hm
          · exact ih o hm
      | insert bs =>
          intro o ho
          rw [show resolveOps A (.insert bs :: rest)
              = .insert bs :: resolveOps A rest from rfl] at ho
          rcases List.mem_cons.mp ho with rfl | hm
          · trivial
          · exact ih o hm

theorem countSrc_append (xs ys : List TOp) :
    countSrc (xs ++ ys) = countSrc xs + countSrc ys := by
  induction xs with
  | nil => simp [countSrc]
  | cons op rest ih =>
      cases op with
      | copySrc o l => simp [countSrc, ih]; omega
      | insert bs => simp [countSrc, ih]

theorem countSrc_sliceOps (ops : List TOp) (h : countSrc ops = 0)
    (off len : Nat) : countSrc (sliceOps ops off len) = 0 := by
  induction ops generalizing off len with
  | nil => simp [sliceOps, countSrc]
  | cons op rest ih =>
      cases op with
      | copySrc o l => simp [countSrc] at h
      | insert bs =>
          simp only [countSrc] at h
          by_cases h0 : len = 0
          · simp [sliceOps, h0, countSrc]
          · by_cases hoff : TOp.outLen (.insert bs) ≤ off
            · rw [show sliceOps (.insert bs :: rest) off len
                  = sliceOps rest (off - TOp.outLen (.insert bs)) len by
                    simp [sliceOps, h0, hoff]]
              exact ih h _ _
            · rw [show sliceOps (.insert bs :: rest) off len
                  = TOp.sliceOut (.insert bs) off
                      (min (TOp.outLen (.insert bs) - off) len)
                    :: sliceOps rest 0
                      (len - min (TOp.outLen (.insert bs) - off) len) by
                    simp only [sliceOps, h0, if_neg hoff]
                    simp]
              simp only [TOp.sliceOut, countSrc]
              exact ih h _ _

theorem countSrc_resolveOps (A B : List TOp) (h : countSrc A = 0) :
    countSrc (resolveOps A B) = 0 := by
  induction B with
  | nil => simp [resolveOps, countSrc]
  | cons op rest ih =>
      cases op with
      | copySrc o l =>
          rw [show resolveOps A (.copySrc o l :: rest)
              = sliceOps A o l ++ resolveOps A rest from rfl]
          rw [countSrc_append, countSrc_sliceOps A h o l, ih]
      | insert bs =>
          rw [show resolveOps A (.insert bs :: rest)
              = .insert bs :: resolveOps A rest from rfl]
          simp only [countSrc]
          exact ih

/-! ## Lemmas about slices -/

theorem sliceL_zero (S : List Nat) (off : Nat) : sliceL S off 0 = [] := by
  simp [sliceL]

theorem length_sliceL (S : List Nat) (off len : Nat)
    (h : off + len ≤ S.length) : (sliceL S off len).length = len := by
  simp only [sliceL, List.length_take, List.length_drop]
  omega

theorem sliceL_add (S : List Nat) (off p q : Nat) :
    sliceL S off (p + q) = sliceL S off p ++ sliceL S (off + p) q := by
  simp only [sliceL]
  rw [List.take_add, List.drop_drop]

/-- Two source slices with the same start agree under a bounded stream. -/
theorem runOps_align_absorb (B : Window) (S : List Nat) (cj : Chunk)
    (hb : opsBounded B.ops B.sview_len)
    (ho : B.sview_offset = cj.offset)
    (hl : B.sview_offset + B.sview_len ≤ cj.offset + cj.size) :
    runOps B.ops (sliceL S cj.offset cj.size)
      = runOps B.ops (sliceL S B.sview_offset B.sview_len) := by
  rw [← ho]
  exact runOps_slice_absorb B.ops (S.drop B.sview_offset) B.sview_len
    cj.size B.sview_len hb (by omega) (le_refl _)

/-! ## Lemmas about the composition handler -/

theorem winYields_of_indep (fs : FS) (ft? : Option Nat) (w : Window)
    (T : List Nat) (hcnt : w.src_ops = countSrc w.ops)
    (hz : countSrc w.ops = 0) (s : List Nat)
    (hrun : runOps w.ops s = T) : WinYields fs ft? w T := by
  refine ⟨[], ?_, ?_⟩
  · cases ft? with
    | none => rfl
    | some fk =>
        simp only [windowSource]
        rw [if_neg (by omega)]
        rfl
  · rw [runOps_indep w.ops hz [] s, hrun]

theorem winYields_of_sviewZero (fs : FS) (ft? : Option Nat) (w : Window)
    (T : List Nat) (hz : w.sview_len = 0)
    (hrun : runOps w.ops [] = T) : WinYields fs ft? w T := by
  refine ⟨[], ?_, hrun⟩
  cases ft? with
  | none => rfl
  | some fk =>
      simp only [windowSource]
      rw [if_neg (by omega)]
      rfl

theorem winYields_of_slice (fs : FS) (fk : Nat) (F : List Nat) (w : Window)
    (T : List Nat) (hstr : fs.strings fk = some (.bytes F))
    (hcnt : w.src_ops = countSrc w.ops)
    (hrun : runOps w.ops (sliceL F w.sview_offset w.sview_len) = T) :
    WinYields fs (some fk) w T := by
  by_cases hc : 0 < w.sview_len ∧ 0 < w.src_ops
  · refine ⟨sliceL F w.sview_offset w.sview_len, ?_, hrun⟩
    simp only [windowSource, if_pos hc, string_read_bytes, hstr]
  · refine ⟨[], ?_, ?_⟩
    · simp only [windowSource, if_neg hc]
      rfl
    · rcases Nat.eq_zero_or_pos w.sview_len with hz | hz
      · rw [← hrun, hz, sliceL_zero]
      · have hso : w.src_ops = 0 := by omega
        rw [runOps_indep w.ops (hcnt ▸ hso)
          [] (sliceL F w.sview_offset w.sview_len), hrun]

theorem compose_handler_none_skip (cb : CHB) (h : cb.init = false) :
    compose_handler none cb = .ok cb := by
  simp [compose_handler, h]

theorem compose_handler_none_empty (cb : CHB) (hw : cb.window = none)
    (hi : cb.init = true) :
    compose_handler none cb = .ok { cb with done := true, init := false } := by
  simp [compose_handler, hw, hi]

theorem compose_handler_copy (w : Window) (cb : CHB)
    (hw : cb.window = none) :
    compose_handler (some w) cb
      = .ok { cb with window := some w
                      done := (w.sview_len = 0 || w.src_ops = 0)
                      init := false } := by
  simp [compose_handler, hw]

theorem compose_handler_compose (w : Window) (cb : CHB) (B : Window)
    (hw : cb.window = some B) (hops : B.src_ops ≠ 0) :
    compose_handler (some w) cb
      = .ok { cb with window := some (composeWin w B), init := false } := by
  simp [compose_handler, hw, compose_windows, hops]

theorem compose_handler_use_second (w? : Option Window) (cb : CHB)
    (B : Window) (hw : cb.window = some B) (hops : B.src_ops = 0)
    (hguard : cb.init = true ∨ w?.isSome) :
    compose_handler w? cb
      = .ok { cb with
                window := some { B with sview_offset := 0, sview_len := 0 }
                done := true
                init := false } := by
  have hg : ¬(¬cb.init ∧ w?.isNone) := by
    rcases hguard with h | h
    · simp [h]
    · cases w? with
      | none => simp at h
      | some w => simp
  unfold compose_handler
  rw [if_neg hg, hw]
  simp [compose_windows, hops]

theorem feedAll_nil (fs : FS) (cur : Nat) (cb : CHB) :
    feedAll fs [] cur cb = .ok cb := rfl

theorem feedAll_cons_done (fs : FS) (chunks : List Chunk)
    (rest : List (List Chunk)) (cur : Nat) (cb : CHB)
    (h : cb.done = true) :
    feedAll fs (chunks :: rest) cur cb = .ok cb := by
  simp [feedAll, h]

theorem feedAll_cons (fs : FS) (chunks : List Chunk)
    (rest : List (List Chunk)) (cur : Nat) (cb : CHB)
    (h : cb.done = false) :
    feedAll fs (chunks :: rest) cur cb
      = (get_one_window fs cb chunks cur).bind (feedAll fs rest cur) := by
  simp [feedAll, h]
  rfl

theorem get_one_window_none (fs : FS) (cb : CHB) (chunks : List Chunk)
    (cur : Nat) (h : chunks[cur]? = none) :
    get_one_window fs cb chunks cur
      = compose_handler none { cb with init := true } := by
  simp [get_one_window, h]

theorem get_one_window_some (fs : FS) (cb : CHB) (chunks : List Chunk)
    (cur : Nat) (c : Chunk) (w : Window) (hc : chunks[cur]? = some c)
    (hw : getWindow fs c.string_key = .ok w) :
    get_one_window fs cb chunks cur
      = (compose_handler (some w) { cb with init := true }).bind
          (compose_handler none) := by
  simp only [get_one_window, hc, hw]
  rfl

theorem exceptBind_ok {α β : Type} (a : α) (f : α → Except Err β) :
    (Except.ok a).bind f = f a := rfl

theorem exceptDo_ok {α β : Type} (a : α) (f : α → Except Err β) :
    (Bind.bind (Except.ok a) f : Except Err β) = f a := rfl

theorem exceptDo_error {α β : Type} (e : Err) (f : α → Except Err β) :
    (Bind.bind (Except.error e : Except Err α) f : Except Err β)
      = .error e := rfl

theorem exceptPure {α : Type} (a : α) :
    (pure a : Except Err α) = .ok a := rfl

theorem exceptBind_error {α β : Type} (e : Err) (f : α → Except Err β) :
    (Except.error e : Except Err α).bind f = .error e := rfl

/-- The composed window applied to the older window's source slice
produces what the newer window produced from the older's target
segment. -/
theorem composite_runs (B w1 : Window) (C S_src : List Nat) (cj : Chunk)
    (T : List Nat)
    (hbndB : opsBounded B.ops B.sview_len)
    (hrunB : runOps B.ops (sliceL C B.sview_offset B.sview_len) = T)
    (halB : B.sview_offset = cj.offset ∧
      B.sview_offset + B.sview_len ≤ cj.offset + cj.size)
    (hbnd1 : opsBounded w1.ops w1.sview_len)
    (hsv1 : w1.sview_offset + w1.sview_len ≤ S_src.length)
    (hrun1 : runOps w1.ops (sliceL S_src w1.sview_offset w1.sview_len)
      = sliceL C cj.offset cj.size) :
    runOps (composeWin w1 B).ops
      (sliceL S_src (composeWin w1 B).sview_offset
        (composeWin w1 B).sview_len) = T := by
  have hslice : (sliceL S_src w1.sview_offset w1.sview_len).length
      = w1.sview_len := length_sliceL _ _ _ hsv1
  have hbnd1' : opsBounded w1.ops
      (sliceL S_src w1.sview_offset w1.sview_len).length := by
    rw [hslice]; exact hbnd1
  show runOps (resolveOps w1.ops B.ops)
      (sliceL S_src w1.sview_offset w1.sview_len) = T
  rw [runOps_resolveOps w1.ops B.ops _ hbnd1', hrun1,
    runOps_align_absorb B C cj hbndB halB.1 halB.2, hrunB]

/-! ## The composition loop produces the right window -/

/-- The inner feed lemma: continuing the fold with an accumulated window
`B` (source-referencing, aligned with the head of the remaining chain)
ends with a window that yields `T`. -/
theorem feedAll_step (fs : FS) (cur j : Nat) (hj : cur ≤ j)
    {deltas : List (List Chunk)} {ft? : Option Nat} {S : List Nat}
    (hview : ChainView fs cur deltas ft? S) :
    ∀ (B : Window) (ini : Bool) (T : List Nat),
    B.src_ops = countSrc B.ops →
    opsBounded B.ops B.sview_len →
    (∀ chunks0, deltas.head? = some chunks0 → alignOK (some chunks0) j B) →
    runOps B.ops (sliceL S B.sview_offset B.sview_len) = T →
    ∃ cb', feedAll fs deltas j ⟨some B, false, ini⟩ = .ok cb' ∧
      ∃ w, cb'.window = some w ∧ WinYields fs ft? w T := by
  induction hview with
  | full chunks fk F C hok hstr hcur =>
      intro B ini T hcnt hbnd halign hrun
      have halign' : alignOK (some chunks) j B := halign chunks rfl
      rw [feedAll_cons fs chunks [] j _ rfl]
      cases hcj : chunks[j]? with
      | none =>
          have hB0 : B.src_ops = 0 := halign'.2 hcj
          rw [get_one_window_none fs _ chunks j hcj,
            compose_handler_use_second none _ B rfl hB0 (Or.inl rfl),
            exceptBind_ok, feedAll_nil]
          refine ⟨_, rfl, _, rfl, ?_⟩
          exact winYields_of_indep fs _ _ T hcnt (by rw [← hcnt]; exact hB0)
            (sliceL C B.sview_offset B.sview_len) hrun
      | some cj =>
          obtain ⟨w1, hw1, hcnt1, hbnd1, hout1, hsv1, hrun1, halign1⟩ :=
            hok.2.2.2.2 j cj hcj
          rw [get_one_window_some fs _ chunks j cj w1 hcj hw1]
          by_cases hB0 : B.src_ops = 0
          · rw [compose_handler_use_second (some w1) _ B rfl hB0
              (Or.inr rfl), exceptBind_ok,
              compose_handler_none_skip _ rfl, exceptBind_ok, feedAll_nil]
            refine ⟨_, rfl, _, rfl, ?_⟩
            exact winYields_of_indep fs _ _ T hcnt (by rw [← hcnt]; exact hB0)
              (sliceL C B.sview_offset B.sview_len) hrun
          · rw [compose_handler_compose w1 _ B rfl hB0, exceptBind_ok,
              compose_handler_none_skip _ rfl, exceptBind_ok, feedAll_nil]
            refine ⟨_, rfl, _, rfl, ?_⟩
            exact winYields_of_slice fs fk F _ T hstr rfl
              (composite_runs B w1 C F cj T hbnd hrun
                (halign'.1 cj hcj) hbnd1 hsv1 hrun1)
  | short chunks cs S_src C hok hshort hcur =>
      intro B ini T hcnt hbnd halign hrun
      have halign' : alignOK (some chunks) j B := halign chunks rfl
      rw [feedAll_cons fs chunks [] j _ rfl]
      cases hcj : chunks[j]? with
      | none =>
          have hB0 : B.src_ops = 0 := halign'.2 hcj
          rw [get_one_window_none fs _ chunks j hcj,
            compose_handler_use_second none _ B rfl hB0 (Or.inl rfl),
            exceptBind_ok, feedAll_nil]
          refine ⟨_, rfl, _, rfl, ?_⟩
          exact winYields_of_indep fs _ _ T hcnt (by rw [← hcnt]; exact hB0)
            (sliceL C B.sview_offset B.sview_len) hrun
      | some cj =>
          obtain ⟨w1, hw1, hcnt1, hbnd1, hout1, hsv1, hrun1, halign1⟩ :=
            hok.2.2.2.2 j cj hcj
          have hcsj : cs[j]? = none :=
            List.getElem?_eq_none (Nat.le_trans hshort hj)
          have hw1z : countSrc w1.ops = 0 := by
            rw [← hcnt1]; exact halign1.2 hcsj
          rw [get_one_window_some fs _ chunks j cj w1 hcj hw1]
          by_cases hB0 : B.src_ops = 0
          · rw [compose_handler_use_second (some w1) _ B rfl hB0
              (Or.inr rfl), exceptBind_ok,
              compose_handler_none_skip _ rfl, exceptBind_ok, feedAll_nil]
            refine ⟨_, rfl, _, rfl, ?_⟩
            exact winYields_of_indep fs _ _ T hcnt (by rw [← hcnt]; exact hB0)
              (sliceL C B.sview_offset B.sview_len) hrun
          · rw [compose_handler_compose w1 _ B rfl hB0, exceptBind_ok,
              compose_handler_none_skip _ rfl, exceptBind_ok, feedAll_nil]
            refine ⟨_, rfl, _, rfl, ?_⟩
            exact winYields_of_indep fs none _ T rfl
              (countSrc_resolveOps w1.ops B.ops hw1z)
              (sliceL S_src (composeWin w1 B).sview_offset
                (composeWin w1 B).sview_len)
              (composite_runs B w1 C S_src cj T hbnd hrun
                (halign'.1 cj hcj) hbnd1 hsv1 hrun1)
  | cons chunks cs rest ft?' S_inner C hok hcur hrest ih =>
      intro B ini T hcnt hbnd halign hrun
      have halign' : alignOK (some chunks) j B := halign chunks rfl
      rw [feedAll_cons fs chunks (cs :: rest) j _ rfl]
      cases hcj : chunks[j]? with
      | none =>
          have hB0 : B.src_ops = 0 := halign'.2 hcj
          rw [get_one_window_none fs _ chunks j hcj,
            compose_handler_use_second none _ B rfl hB0 (Or.inl rfl),
            exceptBind_ok, feedAll_cons_done fs cs rest j _ rfl]
          refine ⟨_, rfl, _, rfl, ?_⟩
          exact winYields_of_indep fs _ _ T hcnt (by rw [← hcnt]; exact hB0)
            (sliceL C B.sview_offset B.sview_len) hrun
      | some cj =>
          obtain ⟨w1, hw1, hcnt1, hbnd1, hout1, hsv1, hrun1, halign1⟩ :=
            hok.2.2.2.2 j cj hcj
          rw [get_one_window_some fs _ chunks j cj w1 hcj hw1]
          by_cases hB0 : B.src_ops = 0
          · rw [compose_handler_use_second (some w1) _ B rfl hB0
              (Or.inr rfl), exceptBind_ok,
              compose_handler_none_skip _ rfl, exceptBind_ok,
              feedAll_cons_done fs cs rest j _ rfl]
            refine ⟨_, rfl, _, rfl, ?_⟩
            exact winYields_of_indep fs _ _ T hcnt (by rw [← hcnt]; exact hB0)
              (sliceL C B.sview_offset B.sview_len) hrun
          · rw [compose_handler_compose w1 _ B rfl hB0, exceptBind_ok,
              compose_handler_none_skip _ rfl, exceptBind_ok]
            refine ih (composeWin w1 B) false T rfl ?_ ?_ ?_
            · show opsBounded (resolveOps w1.ops B.ops) w1.sview_len
              exact resolveOps_bounded w1.ops B.ops w1.sview_len hbnd1
            · intro chunks0 hh
              injection hh with hh
              subst hh
              refine ⟨halign1.1, ?_⟩
              intro hnone
              show countSrc (resolveOps w1.ops B.ops) = 0
              exact countSrc_resolveOps w1.ops B.ops
                (by rw [← hcnt1]; exact halign1.2 hnone)
            · exact composite_runs B w1 C S_inner cj T hbnd hrun
                (halign'.1 cj hcj) hbnd1 hsv1 hrun1

/-- The feed loop lemma: starting from an empty baton at a chunk index `j`
the head rep covers, the fold ends with a window that yields the head
rep's `j`-th content segment. -/
theorem feedAll_yields (fs : FS) (cur j : Nat) (hj : cur ≤ j)
    {deltas : List (List Chunk)} {ft? : Option Nat} {C : List Nat}
    (hview : ChainView fs cur deltas ft? C)
    {chunks0 : List Chunk} (hhead : deltas.head? = some chunks0)
    {cj : Chunk} (hcj : chunks0[j]? = some cj) (ini : Bool) :
    ∃ cb', feedAll fs deltas j ⟨none, false, ini⟩ = .ok cb' ∧
      ∃ w, cb'.window = some w ∧
        WinYields fs ft? w (sliceL C cj.offset cj.size) := by
  cases hview with
  | full chunks fk F C hok hstr hcur =>
      have hcj' : chunks[j]? = some cj := by
        injection hhead with hh
        rw [hh]; exact hcj
      obtain ⟨w1, hw1, hcnt1, hbnd1, hout1, hsv1, hrun1, halign1⟩ :=
        hok.2.2.2.2 j cj hcj'
      rw [feedAll_cons fs chunks [] j _ rfl,
        get_one_window_some fs _ chunks j cj w1 hcj' hw1,
        compose_handler_copy w1 _ rfl, exceptBind_ok,
        compose_handler_none_skip _ rfl, exceptBind_ok, feedAll_nil]
      refine ⟨_, rfl, _, rfl, ?_⟩
      exact winYields_of_slice fs fk F w1 _ hstr hcnt1 hrun1
  | short chunks cs S_src C hok hshort hcur =>
      have hcj' : chunks[j]? = some cj := by
        injection hhead with hh
        rw [hh]; exact hcj
      obtain ⟨w1, hw1, hcnt1, hbnd1, hout1, hsv1, hrun1, halign1⟩ :=
        hok.2.2.2.2 j cj hcj'
      have hcsj : cs[j]? = none :=
        List.getElem?_eq_none (Nat.le_trans hshort hj)
      rw [feedAll_cons fs chunks [] j _ rfl,
        get_one_window_some fs _ chunks j cj w1 hcj' hw1,
        compose_handler_copy w1 _ rfl, exceptBind_ok,
        compose_handler_none_skip _ rfl, exceptBind_ok, feedAll_nil]
      refine ⟨_, rfl, _, rfl, ?_⟩
      exact winYields_of_indep fs none w1 _ hcnt1
        (by rw [← hcnt1]; exact halign1.2 hcsj) _ hrun1
  | cons chunks cs rest ft?2 S_inner C hok hcur hrest =>
      have hcj' : chunks[j]? = some cj := by
        injection hhead with hh
        rw [hh]; exact hcj
      obtain ⟨w1, hw1, hcnt1, hbnd1, hout1, hsv1, hrun1, halign1⟩ :=
        hok.2.2.2.2 j cj hcj'
      rw [feedAll_cons fs chunks (cs :: rest) j _ rfl,
        get_one_window_some fs _ chunks j cj w1 hcj' hw1,
        compose_handler_copy w1 _ rfl, exceptBind_ok,
        compose_handler_none_skip _ rfl, exceptBind_ok]
      by_cases hdone : w1.sview_len = 0 ∨ w1.src_ops = 0
      · rw [feedAll_cons_done fs cs rest j _ (by
          simp only [decide_eq_true_eq]
          rcases hdone with h | h
          · simp [h]
          · simp [h])]
        refine ⟨_, rfl, _, rfl, ?_⟩
        rcases Nat.eq_zero_or_pos w1.src_ops with hz | hz
        · exact winYields_of_indep fs _ w1 _ hcnt1
            (by rw [← hcnt1]; exact hz) _ hrun1
        · have hsz : w1.sview_len = 0 := by
            rcases hdone with h | h
            · exact h
            · omega
          refine winYields_of_sviewZero fs _ w1 _ hsz ?_
          rw [← hrun1, hsz, sliceL_zero]
      · push_neg at hdone
        rw [show ((w1.sview_len = 0 || w1.src_ops = 0) : Bool) = false by
          simp only [Bool.or_eq_false_iff, decide_eq_false_iff_not]
          exact hdone]
        exact feedAll_step fs cur j hj hrest w1 false _ hcnt1 hbnd1
          (by
            intro chunks1 hh
            injection hh with hh
            subst hh
            exact halign1) hrun1

/-! ## Contiguity lemmas -/

theorem totalLen_nil : totalLen [] = 0 := rfl

theorem totalLen_cons (c : Chunk) (rest : List Chunk) :
    totalLen (c :: rest) = c.size + totalLen rest := by
  simp [totalLen]

theorem contig_bounds (chunks : List Chunk) (base : Nat)
    (h : contig chunks base) :
    ∀ (j : Nat) (c : Chunk), chunks[j]? = some c →
      base ≤ c.offset ∧ c.offset + c.size ≤ base + totalLen chunks := by
  induction chunks generalizing base with
  | nil => intro j c hc; simp at hc
  | cons c0 rest ih =>
      obtain ⟨hoff, hsz, hrest⟩ := h
      intro j c hc
      cases j with
      | zero =>
          rw [List.getElem?_cons_zero] at hc
          injection hc with hc
          subst hc
          rw [totalLen_cons]
          omega
      | succ j' =>
          rw [List.getElem?_cons_succ] at hc
          have := ih (base + c0.size) hrest j' c hc
          rw [totalLen_cons]
          omega

theorem get_chunk_offset_none (chunks : List Chunk) (base off : Nat)
    (h : contig chunks base) (hoff : base + totalLen chunks ≤ off) :
    get_chunk_offset chunks off = none := by
  induction chunks generalizing base with
  | nil => rfl
  | cons c0 rest ih =>
      obtain ⟨ho, hsz, hrest⟩ := h
      rw [totalLen_cons] at hoff
      rw [get_chunk_offset, if_neg (by omega),
        ih (base + c0.size) hrest (by omega)]
      rfl

theorem get_chunk_offset_some (chunks : List Chunk) (base off : Nat)
    (h : contig chunks base) (hlo : base ≤ off)
    (hhi : off < base + totalLen chunks) :
    ∃ (j : Nat) (c : Chunk), get_chunk_offset chunks off = some (j, off - c.offset) ∧
      chunks[j]? = some c ∧ c.offset ≤ off ∧ off < c.offset + c.size := by
  induction chunks generalizing base with
  | nil => rw [totalLen_nil] at hhi; omega
  | cons c0 rest ih =>
      obtain ⟨ho, hsz, hrest⟩ := h
      rw [totalLen_cons] at hhi
      by_cases hin : off < c0.offset + c0.size
      · refine ⟨0, c0, ?_, ?_, by omega, hin⟩
        · rw [get_chunk_offset, if_pos hin]
        · rw [List.getElem?_cons_zero]
      · obtain ⟨j, c, hres, hc, hle, hlt⟩ :=
          ih (base + c0.size) hrest (by omega) (by omega)
        refine ⟨j + 1, c, ?_, ?_, hle, hlt⟩
        · rw [get_chunk_offset, if_neg hin, hres]
          rfl
        · rw [List.getElem?_cons_succ]
          exact hc

theorem contig_next (chunks : List Chunk) (base : Nat)
    (h : contig chunks base) (j : Nat) (c : Chunk)
    (hc : chunks[j]? = some c)
    (hlt : c.offset + c.size < base + totalLen chunks) :
    ∃ c', chunks[j + 1]? = some c' ∧ c'.offset = c.offset + c.size ∧
      0 < c'.size := by
  induction chunks generalizing base j with
  | nil => simp at hc
  | cons c0 rest ih =>
      obtain ⟨ho, hsz, hrest⟩ := h
      rw [totalLen_cons] at hlt
      cases j with
      | zero =>
          rw [List.getElem?_cons_zero] at hc
          injection hc with hc
          subst hc
          cases rest with
          | nil => rw [totalLen_nil] at hlt; omega
          | cons c1 rest' =>
              obtain ⟨ho1, hsz1, _⟩ := hrest
              refine ⟨c1, ?_, by omega, hsz1⟩
              rw [List.getElem?_cons_succ, List.getElem?_cons_zero]
      | succ j' =>
          rw [List.getElem?_cons_succ] at hc
          obtain ⟨c', hc', ho', hsz'⟩ :=
            ih (base + c0.size) hrest j' hc (by omega)
          refine ⟨c', ?_, ho', hsz'⟩
          rw [List.getElem?_cons_succ]
          exact hc'

/-- Structural facts about the head of a chain view. -/
theorem ChainView_head (fs : FS) (cur : Nat)
    {deltas : List (List Chunk)} {ft? : Option Nat} {C : List Nat}
    (h : ChainView fs cur deltas ft? C) :
    ∃ chunks0 rest, deltas = chunks0 :: rest ∧
      contig chunks0 0 ∧ C.length = totalLen chunks0 ∧
      cur < chunks0.length := by
  cases h with
  | full chunks fk F C hok hstr hcur =>
      exact ⟨chunks, [], rfl, hok.2.1, hok.2.2.2.1, hcur⟩
  | short chunks cs S C hok hshort hcur =>
      exact ⟨chunks, [], rfl, hok.2.1, hok.2.2.2.1, hcur⟩
  | cons chunks cs rest ft?2 S C hok hcur hrest =>
      exact ⟨chunks, cs :: rest, rfl, hok.2.1, hok.2.2.2.1, hcur⟩

/-! ## The undeltify loop -/

theorem undeltify_loop_succ (fs : FS) (deltas : List (List Chunk))
    (ft? : Option Nat) (len fuel j skip : Nat) (acc : List Nat) :
    undeltify_loop fs deltas ft? len (fuel + 1) j skip acc
      = (feedAll fs deltas j ⟨none, false, false⟩).bind fun cb =>
          match cb.window with
          | none => .ok acc
          | some w =>
              (windowSource fs ft? w).bind fun source_buf =>
                let out := applyInstructions w.ops source_buf
                  (len - acc.length + skip)
                let bytes := out.drop skip
                let acc' := acc ++ bytes
                if len ≤ acc'.length then .ok acc'
                else undeltify_loop fs deltas ft? len fuel (j + 1) 0 acc' :=
  rfl

/-- Correctness of the undeltify loop over a chain view: starting at chunk
`j` with `skip` bytes to discard, the loop returns exactly the requested
slice of the outermost rep's content. -/
theorem undeltify_loop_ok (fs : FS) (cur : Nat)
    {chunks0 : List Chunk} {rest : List (List Chunk)} {ft? : Option Nat}
    {C : List Nat} (hview : ChainView fs cur (chunks0 :: rest) ft? C)
    (hcontig : contig chunks0 0) (hlen : C.length = totalLen chunks0)
    (len : Nat) :
    ∀ fuel j skip acc cj,
      cur ≤ j →
      chunks0[j]? = some cj →
      skip < cj.size →
      (len - acc.length) + (cj.offset + skip) ≤ C.length →
      len - acc.length < fuel →
      undeltify_loop fs (chunks0 :: rest) ft? len fuel j skip acc
        = .ok (acc ++ sliceL C (cj.offset + skip) (len - acc.length)) := by
  intro fuel
  induction fuel with
  | zero => intro j skip acc cj _ _ _ _ hfu; omega
  | succ fuel ih =>
      intro j skip acc cj hj hcj hskip hbound hfu
      obtain ⟨cb', hfeed, w, hw, src, hsrc, hrun⟩ :=
        feedAll_yields fs cur j hj hview rfl hcj false
      have hcb : ∀ c ∈ chunks0, True := fun _ _ => trivial
      obtain ⟨hcle, hchi⟩ := contig_bounds chunks0 0 hcontig j cj hcj
      have hseglen : (sliceL C cj.offset cj.size).length = cj.size :=
        length_sliceL C cj.offset cj.size (by omega)
      rw [undeltify_loop_succ, hfeed, exceptBind_ok]
      simp only [hw]
      rw [hsrc, exceptBind_ok]
      simp only [applyInstructions, hrun]
      set r := len - acc.length with hr
      set p := cj.size - skip with hp
      have hbytes : ((sliceL C cj.offset cj.size).take (r + skip)).drop skip
          = (C.drop (cj.offset + skip)).take (min r p) := by
        rw [List.drop_take]
        have h1 : (sliceL C cj.offset cj.size).drop skip
            = (C.drop (cj.offset + skip)).take p := by
          simp only [sliceL]
          rw [List.drop_take, List.drop_drop]
        rw [h1, List.take_take]
        congr 1
        omega
      rw [show r + skip = len - acc.length + skip from rfl] at hbytes
      rw [hbytes]
      rcases Nat.le_total r p with hrp | hrp
      · have hmin : min r p = r := Nat.min_eq_left hrp
        rw [hmin]
        have hblen : ((C.drop (cj.offset + skip)).take r).length = r := by
          rw [List.length_take, List.length_drop]
          omega
        rw [if_pos (by rw [List.length_append, hblen]; omega)]
        rfl
      · have hmin : min r p = p := Nat.min_eq_right hrp
        rw [hmin]
        have hblen : ((C.drop (cj.offset + skip)).take p).length = p := by
          rw [List.length_take, List.length_drop]
          omega
        by_cases hstop : len ≤ acc.length + p
        · have hreq : r = p := by omega
          rw [if_pos (by rw [List.length_append, hblen]; omega)]
          rw [← hreq]
          rfl
        · rw [if_neg (by rw [List.length_append, hblen]; omega)]
          obtain ⟨c', hc', ho', hsz'⟩ :=
            contig_next chunks0 0 hcontig j cj hcj (by omega)
          have hacclen : (acc ++ (C.drop (cj.offset + skip)).take p).length
              = acc.length + p := by
            rw [List.length_append, hblen]
          rw [ih (j + 1) 0 (acc ++ (C.drop (cj.offset + skip)).take p)
            c' (by omega) hc' hsz'
            (by rw [hacclen]; omega)
            (by rw [hacclen]; omega)]
          have hstep : sliceL C (c'.offset + 0)
              (len - (acc ++ (C.drop (cj.offset + skip)).take p).length)
              = sliceL C (cj.offset + skip + p) (r - p) := by
            rw [hacclen]
            rw [show c'.offset + 0 = cj.offset + skip + p by omega]
            congr 1
            omega
          rw [hstep]
          have hsplit : sliceL C (cj.offset + skip) r
              = sliceL C (cj.offset + skip) p
                ++ sliceL C (cj.offset + skip + p) (r - p) := by
            rw [← sliceL_add]
            congr 1
            omega
          rw [hsplit, List.append_assoc]
          rfl

/-! ## The chain walk -/

theorem sameVersion_at (chunks : List Chunk) (h : sameVersion chunks)
    (j : Nat) (c c0 : Chunk) (hc : chunks[j]? = some c)
    (h0 : chunks[0]? = some c0) : c.version = c0.version := by
  cases chunks with
  | nil => simp at hc
  | cons a rest =>
      rw [List.getElem?_cons_zero] at h0
      injection h0 with h0
      subst h0
      cases j with
      | zero =>
          rw [List.getElem?_cons_zero] at hc
          injection hc with hc
          subst hc
          rfl
      | succ j' =>
          rw [List.getElem?_cons_succ] at hc
          exact h c (List.getElem?_mem hc)

theorem Reconstructs_rep {fs : FS} {k : Nat} {C : List Nat} {d : Nat}
    (h : Reconstructs fs k C d) : ∃ rep, fs.reps k = some rep := by
  cases h with
  | fulltext k rep sk bs hrep hcts hstr => exact ⟨rep, hrep⟩
  | delta k rep chunks srcKey S C d hrep hcts hsrc hS hok => exact ⟨rep, hrep⟩

/-- The walk collects the chain into a `ChainView`. -/
theorem walk_ok (fs : FS) (cur : Nat) :
    ∀ {k : Nat} {C : List Nat} {d : Nat}, Reconstructs fs k C d →
    ∀ {rep : Rep} {chunks : List Chunk},
    fs.reps k = some rep → rep.contents = .delta chunks →
    cur < chunks.length →
    ∀ fuel, d < fuel → ∀ acc,
    ∃ tail stop?,
      walk fs cur fuel k chunks acc = .ok (acc ++ chunks :: tail, stop?) ∧
      ChainView fs cur (chunks :: tail)
        (stop?.bind fun r =>
          match r.contents with
          | .fulltext sk? => sk?
          | .delta _ => none) C := by
  intro k C d h
  induction h with
  | fulltext k rep sk bs hrep hcts hstr =>
      intro rep' chunks hrep' hcts' hcur fuel hfuel acc
      rw [hrep] at hrep'
      injection hrep' with hrep'
      subst hrep'
      rw [hcts] at hcts'
      cases hcts'
  | delta k rep chunks srcKey S C d hrep hcts hsrcU hS hok ih =>
      intro rep' chunks' hrep' hcts' hcur fuel hfuel acc
      rw [hrep] at hrep'
      injection hrep' with hrep'
      subst hrep'
      rw [hcts] at hcts'
      injection hcts' with hcts'
      subst hcts'
      obtain ⟨hne, hcontig, hver, hlenC, hch⟩ := hok
      cases fuel with
      | zero => omega
      | succ f =>
          have hpos : 0 < chunks.length := List.length_pos.mpr hne
          obtain ⟨c0, h0⟩ : ∃ c0, chunks[0]? = some c0 :=
            ⟨_, List.getElem?_eq_getElem hpos⟩
          obtain ⟨c, hc⟩ : ∃ c, chunks[cur]? = some c :=
            ⟨_, List.getElem?_eq_getElem hcur⟩
          have hvok : ¬c0.version ≠ c.version := by
            rw [sameVersion_at chunks hver cur c c0 hc h0]
            exact fun hne' => hne' rfl
          have hkey : c.rep_key = srcKey := hsrcU c (List.getElem?_mem hc)
          cases hS with
          | fulltext _ srep sk bs hrepS hctsS hstrS =>
              refine ⟨[], some srep, ?_, ?_⟩
              · rw [walk]
                simp only [h0, hc]
                rw [if_neg hvok]
                simp only [hkey, read_rep, hrepS, exceptDo_ok, hctsS]
              · rw [show (Option.bind (some srep) fun r =>
                    match r.contents with
                    | RepContents.fulltext sk? => sk?
                    | RepContents.delta _ => none) = some sk from by
                  show (match srep.contents with
                    | RepContents.fulltext sk? => sk?
                    | RepContents.delta _ => none) = some sk
                  rw [hctsS]]
                have hshape : srcShapeOf fs srcKey = none := by
                  simp [srcShapeOf, hrepS, hctsS]
                rw [hshape] at hch
                exact ChainView.full chunks sk S C
                  ⟨hne, hcontig, hver, hlenC, hch⟩ hstrS hcur
          | delta _ srep chunks_s srcKey2 S2 SC d2 hrepS hctsS hsrcU2
              hS2 hokS =>
              have hshape : srcShapeOf fs srcKey = some chunks_s := by
                simp [srcShapeOf, hrepS, hctsS]
              rw [hshape] at hch
              by_cases hcs : cur < chunks_s.length
              · obtain ⟨tail2, stop2, hwalk2, hview2⟩ :=
                  ih hrepS hctsS hcs f (by omega) (acc ++ [chunks])
                refine ⟨chunks_s :: tail2, stop2, ?_, ?_⟩
                · rw [walk]
                  simp only [h0, hc]
                  rw [if_neg hvok]
                  simp only [hkey, read_rep, hrepS, exceptDo_ok, hctsS]
                  rw [if_pos hcs, hwalk2]
                  rw [List.append_assoc]
                  rfl
                · exact ChainView.cons chunks chunks_s tail2 _ _ C
                    ⟨hne, hcontig, hver, hlenC, hch⟩ hcur hview2
              · refine ⟨[], none, ?_, ?_⟩
                · rw [walk]
                  simp only [h0, hc]
                  rw [if_neg hvok]
                  simp only [hkey, read_rep, hrepS, exceptDo_ok, hctsS]
                  rw [if_neg hcs]
                · exact ChainView.short chunks chunks_s _ C
                    ⟨hne, hcontig, hver, hlenC, hch⟩ (by omega) hcur

/-! ## Correctness of the range reader -/

theorem sliceL_of_ge (bs : List Nat) (a n : Nat) (h : bs.length ≤ a) :
    sliceL bs a n = [] := by
  simp only [sliceL]
  rw [List.drop_eq_nil_of_le h, List.take_nil]

/-- The range reader returns exactly the requested slice of the
reconstructed content, for in-range requests. -/
theorem rep_read_range_ok (fs : FS) {k : Nat} {C : List Nat} {d : Nat}
    (h : Reconstructs fs k C d) {fuel : Nat} (hfuel : d < fuel)
    (a n : Nat) (hn : a + n ≤ C.length) :
    rep_read_range fs fuel k a n = .ok (sliceL C a n) := by
  cases h with
  | fulltext k rep sk bs hrep hcts hstr =>
      simp only [rep_read_range, read_rep, hrep, exceptDo_ok, hcts,
        string_read_bytes, hstr]
  | delta k rep chunks srcKey S C d hrep hcts hsrcU hS hok =>
      have hok' := hok
      obtain ⟨hne, hcontig, hver, hlenC, hch⟩ := hok'
      by_cases ha : a < C.length
      · obtain ⟨j, c, hres, hc, hle, hlt⟩ :=
          get_chunk_offset_some chunks 0 a hcontig (Nat.zero_le a)
            (by omega)
        have hjlen : j < chunks.length := by
          rcases List.getElem?_eq_some_iff.mp hc with ⟨hj, _⟩
          exact hj
        obtain ⟨tail, stop?, hwalk, hview⟩ :=
          walk_ok fs j (Reconstructs.delta k rep chunks srcKey S C d
            hrep hcts hsrcU hS hok) hrep hcts hjlen fuel hfuel []
        rw [List.nil_append] at hwalk
        simp only [rep_read_range, read_rep, hrep, exceptDo_ok, hcts,
          hres]
        rw [hwalk]
        simp only [exceptDo_ok, rep_undeltify_range]
        rw [undeltify_loop_ok fs j hview hcontig hlenC n (n + 1) j
          (a - c.offset) [] c (le_refl j) hc (by omega)
          (by simp only [List.length_nil, Nat.sub_zero]; omega)
          (by simp only [List.length_nil, Nat.sub_zero]; omega)]
        rw [List.nil_append]
        simp only [List.length_nil, Nat.sub_zero]
        rw [show c.offset + (a - c.offset) = a by omega]
      · have hnone : get_chunk_offset chunks a = none :=
          get_chunk_offset_none chunks 0 a hcontig (by omega)
        simp only [rep_read_range, read_rep, hrep, exceptDo_ok, hcts,
          hnone]
        rw [show sliceL C a n = [] from
          sliceL_of_ge C a n (by omega)]

/-- Reading at or past the end of the content returns zero bytes and
does not raise. -/
theorem rep_read_range_eof (fs : FS) {k : Nat} {C : List Nat} {d : Nat}
    (h : Reconstructs fs k C d) {fuel : Nat} (hfuel : d < fuel)
    (a n : Nat) (ha : C.length ≤ a) :
    rep_read_range fs fuel k a n = .ok [] := by
  cases h with
  | fulltext k rep sk bs hrep hcts hstr =>
      simp only [rep_read_range, read_rep, hrep, exceptDo_ok, hcts,
        string_read_bytes, hstr]
      rw [sliceL_of_ge C a n ha]
  | delta k rep chunks srcKey S C d hrep hcts hsrcU hS hok =>
      obtain ⟨hne, hcontig, hver, hlenC, hch⟩ := hok
      have hnone : get_chunk_offset chunks a = none :=
        get_chunk_offset_none chunks 0 a hcontig (by omega)
      simp only [rep_read_range, read_rep, hrep, exceptDo_ok, hcts,
        hnone]

/-! ## Sizes and whole-content reads -/

theorem contig_last (chunks : List Chunk) (base : Nat)
    (h : contig chunks base) (hne : chunks ≠ []) :
    ∃ last_chunk, chunks.getLast? = some last_chunk ∧
      last_chunk.offset + last_chunk.size = base + totalLen chunks := by
  induction chunks generalizing base with
  | nil => exact absurd rfl hne
  | cons c0 rest ih =>
      obtain ⟨ho, hsz, hrest⟩ := h
      cases rest with
      | nil =>
          refine ⟨c0, rfl, ?_⟩
          rw [totalLen_cons, totalLen_nil]
          omega
      | cons c1 rest' =>
          obtain ⟨last_chunk, hlast, hsum⟩ :=
            ih (base + c0.size) hrest (by intro hx; cases hx)
          refine ⟨last_chunk, ?_, ?_⟩
          · rw [List.getLast?_cons_cons]
            exact hlast
          · rw [totalLen_cons]
            omega

theorem sliceL_all (C : List Nat) : sliceL C 0 C.length = C := by
  simp [sliceL]

/-- The reported content size equals the reconstructed length. -/
theorem rep_contents_size_ok (fs : FS) {k : Nat} {C : List Nat} {d : Nat}
    (h : Reconstructs fs k C d) :
    svn_fs__rep_contents_size fs k = .ok C.length := by
  cases h with
  | fulltext k rep sk bs hrep hcts hstr =>
      simp only [svn_fs__rep_contents_size, read_rep, hrep, exceptDo_ok,
        hcts, string_size, hstr]
  | delta k rep chunks srcKey S C d hrep hcts hsrcU hS hok =>
      obtain ⟨hne, hcontig, hver, hlenC, hch⟩ := hok
      obtain ⟨last_chunk, hlast, hsum⟩ := contig_last chunks 0 hcontig hne
      simp only [svn_fs__rep_contents_size, read_rep, hrep, exceptDo_ok,
        hcts, hlast]
      rw [hlenC]
      rw [show last_chunk.offset + last_chunk.size = totalLen chunks by
        omega]

/-- Reading a rep in full through the read stream yields the
reconstructed content, provided the stored checksum matches (or is the
always-accepting sentinel). -/
theorem rep_read_all_ok (fs : FS) {k : Nat} {C : List Nat} {d : Nat}
    (h : Reconstructs fs k C d) {fuel : Nat} (hfuel : d < fuel)
    (rep : Rep) (hrep : fs.reps k = some rep)
    (hchk : svn_md5_digests_match (svn_md5 C) rep.checksum = true) :
    rep_read_all fs fuel k = .ok C := by
  have hsz := rep_contents_size_ok fs h
  have hread0 : rep_read_range fs fuel k 0 C.length = .ok C := by
    rw [rep_read_range_ok fs h hfuel 0 C.length (by omega), sliceL_all]
  have hread1 : rep_read_range fs fuel k (0 + C.length) C.length
      = .ok [] := by
    rw [Nat.zero_add]
    exact rep_read_range_eof fs h hfuel C.length C.length (le_refl _)
  have h1 : txn_body_read_rep fs fuel ⟨some k, 0, [], C.length, false⟩
      C.length
      = .ok (C, ⟨some k, 0 + C.length, [] ++ C, C.length, true⟩) := by
    simp only [txn_body_read_rep, hread0, exceptDo_ok]
    rw [if_neg (by simp)]
    rw [if_pos (by omega)]
    simp only [read_rep, hrep, exceptDo_ok]
    rw [if_pos (by simpa using hchk)]
  have h2 : txn_body_read_rep fs fuel
      ⟨some k, 0 + C.length, [] ++ C, C.length, true⟩ C.length
      = .ok ([], ⟨some k, 0 + C.length + ([] : List Nat).length,
          [] ++ C, C.length, true⟩) := by
    simp only [txn_body_read_rep, hread1, exceptDo_ok]
    rw [if_pos trivial]
  show (do
    let b ← rep_read_get_baton fs (some k)
    read_stream_loop fs fuel (b.size + 2) b []) = .ok C
  have hb : rep_read_get_baton fs (some k)
      = .ok ⟨some k, 0, [], C.length, false⟩ := by
    simp only [rep_read_get_baton, hsz, exceptDo_ok]
  rw [hb, exceptDo_ok]
  show read_stream_loop fs fuel (C.length + 2)
    ⟨some k, 0, [], C.length, false⟩ [] = .ok C
  rw [show C.length + 2 = (C.length + 1) + 1 from rfl]
  rw [read_stream_loop]
  rw [show (⟨some k, 0, [], C.length, false⟩ : RepReadBaton).size
    = C.length from rfl]
  rw [h1, exceptDo_ok]
  dsimp only
  by_cases hC : C = []
  · subst hC
    rfl
  · rw [if_neg (show ¬(C.isEmpty = true) by
      simp only [List.isEmpty_iff]
      exact hC)]
    rw [read_stream_loop]
    rw [show (⟨some k, 0 + C.length, [] ++ C, C.length, true⟩ :
      RepReadBaton).size = C.length from rfl]
    rw [h2, exceptDo_ok]
    dsimp only
    rw [if_pos (show (([] : List Nat).isEmpty = true) from rfl)]
    rw [List.nil_append]

/-- `svn_fs__rep_contents` on a well-formed rep: the short-read guard
passes, and the result is the content or a checksum-mismatch corruption
error, depending on the stored checksum. -/
theorem rep_contents_ok (fs : FS) {k : Nat} {C : List Nat} {d : Nat}
    (h : Reconstructs fs k C d) {fuel : Nat} (hfuel : d < fuel)
    (hmax : C.length ≤ SVN_MAX_OBJECT_SIZE)
    (rep : Rep) (hrep : fs.reps k = some rep) :
    svn_fs__rep_contents fs fuel k
      = if svn_md5_digests_match (svn_md5 C) rep.checksum then .ok C
        else .error
          (.corrupt "svn_fs__rep_contents: checksum mismatch on rep" k) := by
  have hsz := rep_contents_size_ok fs h
  have hread0 : rep_read_range fs fuel k 0 C.length = .ok C := by
    rw [rep_read_range_ok fs h hfuel 0 C.length (by omega), sliceL_all]
  simp only [svn_fs__rep_contents, hsz, exceptDo_ok]
  rw [if_neg (by omega)]
  rw [hread0, exceptDo_ok]
  rw [if_neg (by exact fun hx => hx rfl)]
  simp only [read_rep, hrep, exceptDo_ok]

/-! ## The version-consistency check -/

/-- `ReachesAt fs cur k kr n`: starting from the delta rep at `k`, the
walk at chunk index `cur` reaches the rep at `kr` after `n` version-clean
hops (each hop follows `chunks[cur].rep_key` of a delta rep whose
`chunks[cur]` agrees with `chunks[0]` on the version byte). -/
inductive ReachesAt (fs : FS) (cur : Nat) : Nat → Nat → Nat → Prop
  | refl (k : Nat) : ReachesAt fs cur k k 0
  | step (k k' : Nat) (n : Nat) (rep : Rep) (chunks : List Chunk)
      (c0 c : Chunk)
      (hrep : fs.reps k = some rep) (hcts : rep.contents = .delta chunks)
      (h0 : chunks[0]? = some c0) (hc : chunks[cur]? = some c)
      (hv : c0.version = c.version)
      (hnext : ReachesAt fs cur c.rep_key k' n) :
      ReachesAt fs cur k k' (n + 1)

/-- A rep on a clean walk prefix ending in a mismatching delta rep is
itself a delta rep with a `cur`-th chunk. -/
theorem ReachesAt_delta (fs : FS) (cur : Nat) {k kr n : Nat}
    (h : ReachesAt fs cur k kr n) (repr : Rep) (chunksr : List Chunk)
    (cr : Chunk) (hrepr : fs.reps kr = some repr)
    (hctsr : repr.contents = .delta chunksr)
    (hcr : chunksr[cur]? = some cr) :
    ∃ rep chunks, fs.reps k = some rep ∧ rep.contents = .delta chunks ∧
      cur < chunks.length := by
  cases h with
  | refl =>
      refine ⟨repr, chunksr, hrepr, hctsr, ?_⟩
      rcases List.getElem?_eq_some_iff.mp hcr with ⟨hlt, _⟩
      exact hlt
  | step _ k' n rep chunks c0 c hrep hcts h0 hc hv hnext =>
      refine ⟨rep, chunks, hrep, hcts, ?_⟩
      rcases List.getElem?_eq_some_iff.mp hc with ⟨hlt, _⟩
      exact hlt

/-- If the walk runs into a rep whose `cur`-th chunk disagrees with its
first chunk on the version byte, it raises `FsCorrupt` naming that rep's
key. -/
theorem walk_mismatch (fs : FS) (cur : Nat) :
    ∀ {k kr n : Nat}, ReachesAt fs cur k kr n →
    ∀ (repr : Rep) (chunksr : List Chunk) (c0r cr : Chunk),
    fs.reps kr = some repr → repr.contents = .delta chunksr →
    chunksr[0]? = some c0r → chunksr[cur]? = some cr →
    c0r.version ≠ cr.version →
    ∀ rep chunks, fs.reps k = some rep → rep.contents = .delta chunks →
    ∀ fuel, n < fuel → ∀ acc,
    walk fs cur fuel k chunks acc
      = .error (.corrupt "diff version inconsistencies in representation"
          kr) := by
  intro k kr n h
  induction h with
  | refl k =>
      intro repr chunksr c0r cr hrepr hctsr h0r hcr hner
      intro rep chunks hrep hcts fuel hfuel acc
      rw [hrepr] at hrep
      injection hrep with hrep
      subst hrep
      rw [hctsr] at hcts
      injection hcts with hcts
      subst hcts
      cases fuel with
      | zero => omega
      | succ f =>
          rw [walk]
          simp only [h0r, hcr]
          rw [if_pos hner]
  | step k k' n rep chunks c0 c hrep hcts h0 hc hv hnext ih =>
      intro repr chunksr c0r cr hrepr hctsr h0r hcr hner
      intro rep2 chunks2 hrep2 hcts2 fuel hfuel acc
      rw [hrep] at hrep2
      injection hrep2 with hrep2
      subst hrep2
      rw [hcts] at hcts2
      injection hcts2 with hcts2
      subst hcts2
      cases fuel with
      | zero => omega
      | succ f =>
          obtain ⟨nrep, nchunks, hnrep, hncts, hnlen⟩ :=
            ReachesAt_delta fs cur hnext repr chunksr cr hrepr hctsr hcr
          rw [walk]
          simp only [h0, hc]
          rw [if_neg (by rw [hv]; exact fun hx => hx rfl)]
          simp only [read_rep, hnrep, exceptDo_ok, hncts]
          rw [if_pos hnlen]
          exact ih repr chunksr c0r cr hrepr hctsr h0r hcr hner
            nrep nchunks hnrep hncts f (by omega) (acc ++ [chunks])

/-! ## Reachability and frame lemmas -/

/-- Every key in the tables is below the fresh-key counter. -/
def keysBounded (fs : FS) : Prop :=
  ∀ j, fs.next ≤ j → fs.strings j = none ∧ fs.reps j = none

/-- `Reaches fs k k'`: the rep at `k'` is on the delta chain of the rep
at `k` (following any chunk's `rep_key`). -/
inductive Reaches (fs : FS) : Nat → Nat → Prop
  | refl (k : Nat) : Reaches fs k k
  | step (k k' : Nat) (rep : Rep) (chunks : List Chunk) (c : Chunk)
      (hrep : fs.reps k = some rep) (hcts : rep.contents = .delta chunks)
      (hmem : c ∈ chunks) (hnext : Reaches fs c.rep_key k') :
      Reaches fs k k'

/-- `UsesStr fs k sk`: some rep on `k`'s chain references the string
`sk` (as its fulltext string or as a chunk string). -/
def UsesStr (fs : FS) (k sk : Nat) : Prop :=
  ∃ k' rep, Reaches fs k k' ∧ fs.reps k' = some rep ∧
    (rep.contents = .fulltext (some sk) ∨
      ∃ chunks c, rep.contents = .delta chunks ∧ c ∈ chunks ∧
        c.string_key = sk)

/-- A reconstruction only depends on the reps and strings its chain
reaches: it transports to any store agreeing there. -/
theorem Reconstructs_frame (fs fs' : FS) :
    ∀ {k : Nat} {C : List Nat} {d : Nat}, Reconstructs fs k C d →
    (∀ k', Reaches fs k k' → fs'.reps k' = fs.reps k') →
    (∀ sk, UsesStr fs k sk → fs'.strings sk = fs.strings sk) →
    Reconstructs fs' k C d := by
  intro k C d h
  induction h with
  | fulltext k rep sk bs hrep hcts hstr =>
      intro hreps hstrs
      refine Reconstructs.fulltext k rep sk bs ?_ hcts ?_
      · rw [hreps k (Reaches.refl k)]
        exact hrep
      · rw [hstrs sk ⟨k, rep, Reaches.refl k, hrep, Or.inl hcts⟩]
        exact hstr
  | delta k rep chunks srcKey S C d hrep hcts hsrcU hS hok ih =>
      intro hreps hstrs
      obtain ⟨hne, hcontig, hver, hlenC, hch⟩ := hok
      obtain ⟨chead, hchead⟩ := List.exists_mem_of_ne_nil chunks hne
      have hkeyhead : chead.rep_key = srcKey := hsrcU chead hchead
      have hstepSrc : ∀ k', Reaches fs srcKey k' → Reaches fs k k' := by
        intro k' hr
        exact Reaches.step k k' rep chunks chead hrep hcts hchead
          (by rw [hkeyhead]; exact hr)
      have hreps' : ∀ k', Reaches fs srcKey k' →
          fs'.reps k' = fs.reps k' := fun k' hr => hreps k' (hstepSrc k' hr)
      have hstrs' : ∀ sk, UsesStr fs srcKey sk →
          fs'.strings sk = fs.strings sk := by
        intro sk ⟨k', rep', hr, hrep', hor⟩
        exact hstrs sk ⟨k', rep', hstepSrc k' hr, hrep', hor⟩
      have hSrc' : Reconstructs fs' srcKey S d := ih hreps' hstrs'
      have hshape : srcShapeOf fs' srcKey = srcShapeOf fs srcKey := by
        simp only [srcShapeOf, hreps srcKey (hstepSrc srcKey
          (Reaches.refl srcKey))]
      refine Reconstructs.delta k rep chunks srcKey S C d ?_ hcts hsrcU
        hSrc' ?_
      · rw [hreps k (Reaches.refl k)]
        exact hrep
      · refine ⟨hne, hcontig, hver, hlenC, ?_⟩
        intro j c hc
        obtain ⟨w, hw, hcnt, hbnd, hout, hsv, hrun, halign⟩ := hch j c hc
        refine ⟨w, ?_, hcnt, hbnd, hout, hsv, hrun, ?_⟩
        · have : fs'.strings c.string_key = fs.strings c.string_key :=
            hstrs c.string_key ⟨k, rep, Reaches.refl k, hrep, Or.inr
              ⟨chunks, c, hcts, List.getElem?_mem hc, rfl⟩⟩
          simp only [getWindow, this]
          simp only [getWindow] at hw
          exact hw
        · rw [hshape]
          exact halign

/-- Chain reachability from a well-formed rep lands on well-formed
reps. -/
theorem Reconstructs_reach (fs : FS) :
    ∀ {k : Nat} {C : List Nat} {d : Nat}, Reconstructs fs k C d →
    ∀ k', Reaches fs k k' → ∃ C' d', Reconstructs fs k' C' d' := by
  intro k C d h
  induction h with
  | fulltext k rep sk bs hrep hcts hstr =>
      intro k' hr
      cases hr with
      | refl => exact ⟨bs, 0, Reconstructs.fulltext k rep sk bs hrep hcts hstr⟩
      | step _ _ rep' chunks c hrep' hcts' hmem hnext =>
          rw [hrep] at hrep'
          injection hrep' with hrep'
          subst hrep'
          rw [hcts] at hcts'
          cases hcts'
  | delta k rep chunks srcKey S C d hrep hcts hsrcU hS hok ih =>
      intro k' hr
      cases hr with
      | refl =>
          exact ⟨C, d + 1, Reconstructs.delta k rep chunks srcKey S C d
            hrep hcts hsrcU hS hok⟩
      | step _ _ rep' chunks' c hrep' hcts' hmem hnext =>
          rw [hrep] at hrep'
          injection hrep' with hrep'
          subst hrep'
          rw [hcts] at hcts'
          injection hcts' with hcts'
          subst hcts'
          rw [hsrcU c hmem] at hnext
          exact ih k' hnext

/-- Strings referenced by a well-formed rep's chain are present. -/
theorem Reconstructs_str_present (fs : FS) {k : Nat} {C : List Nat}
    {d : Nat} (h : Reconstructs fs k C d) (sk : Nat)
    (hu : UsesStr fs k sk) : fs.strings sk ≠ none := by
  obtain ⟨k', rep', hr, hrep', hor⟩ := hu
  obtain ⟨C', d', h'⟩ := Reconstructs_reach fs h k' hr
  cases h' with
  | fulltext _ rep2 sk2 bs hrep2 hcts2 hstr2 =>
      rw [hrep'] at hrep2
      injection hrep2 with hrep2
      subst hrep2
      rcases hor with hft | ⟨chunks, c, hdl, _, _⟩
      · rw [hcts2] at hft
        injection hft with hft
        injection hft with hft
        subst hft
        rw [hstr2]
        exact fun hx => by cases hx
      · rw [hcts2] at hdl
        cases hdl
  | delta _ rep2 chunks2 srcKey2 S2 C2 d2 hrep2 hcts2 hsrcU2 hS2 hok2 =>
      rw [hrep'] at hrep2
      injection hrep2 with hrep2
      subst hrep2
      rcases hor with hft | ⟨chunks, c, hdl, hmem, hcsk⟩
      · rw [hcts2] at hft
        cases hft
      · rw [hcts2] at hdl
        injection hdl with hdl
        subst hdl
        obtain ⟨j, hj⟩ := List.mem_iff_getElem?.mp hmem
        obtain ⟨w, hw, _⟩ := hok2.2.2.2.2 j c hj
        simp only [getWindow] at hw
        subst hcsk
        intro hx
        rw [hx] at hw
        cases hw

/-! ## The deltifier's string writes -/

theorem delete_strings_lookup (fsx : FS) (keys : List Nat) (j : Nat) :
    (delete_strings fsx keys).strings j
      = if j ∈ keys then none else fsx.strings j := by
  induction keys generalizing fsx with
  | nil => simp [delete_strings]
  | cons key rest ih =>
      rw [show delete_strings fsx (key :: rest)
          = delete_strings (string_delete fsx key) rest from rfl]
      rw [ih]
      by_cases hj : j ∈ rest
      · rw [if_pos hj, if_pos (List.mem_cons_of_mem key hj)]
      · rw [if_neg hj]
        by_cases hk : j = key
        · subst hk
          rw [if_pos (List.mem_cons_self j rest)]
          simp [string_delete, updStr]
        · rw [if_neg (by
            intro hx
            rcases List.mem_cons.mp hx with h1 | h1
            · exact hk h1
            · exact hj h1)]
          simp [string_delete, updStr, hk]

theorem delete_strings_reps (fsx : FS) (keys : List Nat) :
    (delete_strings fsx keys).reps = fsx.reps := by
  induction keys generalizing fsx with
  | nil => rfl
  | cons key rest ih =>
      rw [show delete_strings fsx (key :: rest)
          = delete_strings (string_delete fsx key) rest from rfl]
      rw [ih]
      rfl

theorem writeWindows_reps (fs : FS) (t : Nat) (pws : List ProdWindow) :
    (writeWindows fs t pws).1.reps = fs.reps := by
  induction pws generalizing fs t with
  | nil => rfl
  | cons pw rest ih =>
      rw [writeWindows]
      dsimp only
      exact ih _ _

theorem writeWindows_next (fs : FS) (t : Nat) (pws : List ProdWindow) :
    fs.next ≤ (writeWindows fs t pws).1.next := by
  induction pws generalizing fs t with
  | nil => exact le_refl _
  | cons pw rest ih =>
      rw [writeWindows]
      dsimp only
      refine Nat.le_trans (Nat.le_succ fs.next) ?_
      have h2 := ih
        { strings :=
            (updStr fs fs.next (some (.diff pw.w pw.svndiff_len))).strings,
          reps := (updStr fs fs.next (some (.diff pw.w pw.svndiff_len))).reps,
          next := fs.next + 1 } (t + pw.w.tview_len)
      exact h2

theorem writeWindows_strings_lt (fs : FS) (t : Nat) (pws : List ProdWindow)
    (j : Nat) (hj : j < fs.next) :
    (writeWindows fs t pws).1.strings j = fs.strings j := by
  induction pws generalizing fs t with
  | nil => rfl
  | cons pw rest ih =>
      rw [writeWindows]
      dsimp only
      rw [ih _ _ (by dsimp only [updStr]; omega)]
      simp only [updStr]
      rw [if_neg (by omega)]

theorem writeWindows_keys_ge (fs : FS) (t : Nat) (pws : List ProdWindow) :
    ∀ ww ∈ (writeWindows fs t pws).2, fs.next ≤ ww.key := by
  induction pws generalizing fs t with
  | nil => intro ww hww; simp [writeWindows] at hww
  | cons pw rest ih =>
      intro ww hww
      rw [writeWindows] at hww
      dsimp only at hww
      rcases List.mem_cons.mp hww with rfl | hmem
      · exact le_refl _
      · exact Nat.le_trans (Nat.le_succ _) (ih _ _ ww hmem)

theorem writeWindows_strings_not_key (fs : FS) (t : Nat)
    (pws : List ProdWindow) (j : Nat)
    (hj : j ∉ (writeWindows fs t pws).2.map (·.key)) :
    (writeWindows fs t pws).1.strings j = fs.strings j := by
  induction pws generalizing fs t with
  | nil => rfl
  | cons pw rest ih =>
      rw [writeWindows] at hj ⊢
      dsimp only at hj ⊢
      simp only [List.map_cons, List.mem_cons] at hj
      push_neg at hj
      rw [ih _ _ hj.2]
      simp only [updStr]
      rw [if_neg hj.1]

theorem writeWindows_len (fs : FS) (t : Nat) (pws : List ProdWindow) :
    (writeWindows fs t pws).2.length = pws.length := by
  induction pws generalizing fs t with
  | nil => rfl
  | cons pw rest ih =>
      rw [writeWindows]
      dsimp only
      simp only [List.length_cons]
      rw [ih]

/-- Cumulative target-view offset of the first `i` produced windows. -/
def prefixTview : List ProdWindow → Nat → Nat
  | _, 0 => 0
  | [], _ + 1 => 0
  | pw :: rest, i + 1 => pw.w.tview_len + prefixTview rest i

/-- Per-window characterization of the deltifier's string writes. -/
theorem writeWindows_at (fs : FS) (t : Nat) (pws : List ProdWindow)
    (i : Nat) (pw : ProdWindow) (hi : pws[i]? = some pw) :
    ∃ ww, (writeWindows fs t pws).2[i]? = some ww ∧
      ww.text_len = pw.w.tview_len ∧ ww.svndiff_len = pw.svndiff_len ∧
      ww.text_off = t + prefixTview pws i ∧
      fs.next ≤ ww.key ∧
      (writeWindows fs t pws).1.strings ww.key
        = some (.diff pw.w pw.svndiff_len) := by
  induction pws generalizing fs t i with
  | nil => simp at hi
  | cons pw0 rest ih =>
      cases i with
      | zero =>
          rw [List.getElem?_cons_zero] at hi
          injection hi with hi
          subst hi
          rw [writeWindows]
          dsimp only
          refine ⟨⟨fs.next, pw0.svndiff_len, t, pw0.w.tview_len⟩,
            List.getElem?_cons_zero, rfl, rfl, ?_, le_refl _, ?_⟩
          · show t = t + prefixTview (pw0 :: rest) 0
            rfl
          · rw [writeWindows_strings_lt _ _ _ fs.next
              (by dsimp only [updStr]; omega)]
            simp [updStr]
      | succ i' =>
          rw [List.getElem?_cons_succ] at hi
          obtain ⟨ww, hww, h1, h2, h3, h4, h5⟩ := ih _ _ i' hi
          rw [writeWindows]
          dsimp only
          refine ⟨ww, ?_, h1, h2, ?_, ?_, h5⟩
          · rw [List.getElem?_cons_succ]
            exact hww
          · rw [h3]
            show _ = t + (pw0.w.tview_len + prefixTview rest i')
            dsimp only [updStr]
            omega
          · refine Nat.le_trans ?_ h4
            dsimp only [updStr]
            omega

/-! ## Producer semantics -/

/-- The target bytes one produced window yields from the source
content. -/
def prodOut (pw : ProdWindow) (S : List Nat) : List Nat :=
  runOps pw.w.ops (sliceL S pw.w.sview_offset pw.w.sview_len)

/-- The fulltext the produced window sequence reconstructs from the
source content (the binary-diff producer's contract: this equals the
target's fulltext). -/
def prodConcat : List ProdWindow → List Nat → List Nat
  | [], _ => []
  | pw :: rest, S => prodOut pw S ++ prodConcat rest S

/-- Structural conditions on the producer's windows (the oracle's
contract, spec sections 4.C and 6, against source content `S` of the
source rep at `source`). -/
def ProducerOK (fs : FS) (source : Nat) (S : List Nat)
    (pws : List ProdWindow) : Prop :=
  (∀ pw ∈ pws,
    pw.w.src_ops = countSrc pw.w.ops ∧
    opsBounded pw.w.ops pw.w.sview_len ∧
    opsOutLen pw.w.ops = pw.w.tview_len ∧
    0 < pw.w.tview_len ∧
    pw.w.sview_offset + pw.w.sview_len ≤ S.length) ∧
  (∀ (i : Nat) (pw : ProdWindow), pws[i]? = some pw →
    alignOK (srcShapeOf fs source) i pw.w)

theorem prodOut_length (pw : ProdWindow) (S : List Nat)
    (hbnd : opsBounded pw.w.ops pw.w.sview_len)
    (hsv : pw.w.sview_offset + pw.w.sview_len ≤ S.length)
    (hout : opsOutLen pw.w.ops = pw.w.tview_len) :
    (prodOut pw S).length = pw.w.tview_len := by
  unfold prodOut
  rw [runOps_length _ _ (by
    rw [length_sliceL S _ _ hsv]
    exact hbnd)]
  exact hout

theorem prodConcat_slice (pws : List ProdWindow) (S : List Nat)
    (hall : ∀ pw ∈ pws,
      opsBounded pw.w.ops pw.w.sview_len ∧
      pw.w.sview_offset + pw.w.sview_len ≤ S.length ∧
      opsOutLen pw.w.ops = pw.w.tview_len) :
    ∀ (i : Nat) (pw : ProdWindow), pws[i]? = some pw →
    sliceL (prodConcat pws S) (prefixTview pws i) pw.w.tview_len
      = prodOut pw S := by
  induction pws with
  | nil => intro i pw hi; simp at hi
  | cons pw0 rest ih =>
      intro i pw hi
      have h0 := hall pw0 (List.mem_cons_self pw0 rest)
      have hlen0 : (prodOut pw0 S).length = pw0.w.tview_len :=
        prodOut_length pw0 S h0.1 h0.2.1 h0.2.2
      cases i with
      | zero =>
          rw [List.getElem?_cons_zero] at hi
          injection hi with hi
          subst hi
          show sliceL (prodOut pw0 S ++ prodConcat rest S) 0
            pw0.w.tview_len = prodOut pw0 S
          simp only [sliceL, List.drop_zero]
          rw [List.take_append_eq_append_take, ← hlen0, List.take_length,
            Nat.sub_self, List.take_zero, List.append_nil]
      | succ i' =>
          rw [List.getElem?_cons_succ] at hi
          show sliceL (prodOut pw0 S ++ prodConcat rest S)
            (pw0.w.tview_len + prefixTview rest i') pw.w.tview_len
            = prodOut pw S
          simp only [sliceL]
          rw [List.drop_append_eq_append_drop, hlen0]
          rw [List.drop_eq_nil_of_le (by omega), List.nil_append]
          rw [show pw0.w.tview_len + prefixTview rest i' - pw0.w.tview_len
            = prefixTview rest i' by omega]
          exact ih (fun pw' hm => hall pw' (List.mem_cons_of_mem pw0 hm))
            i' pw hi

theorem prodConcat_length (pws : List ProdWindow) (S : List Nat)
    (hall : ∀ pw ∈ pws,
      opsBounded pw.w.ops pw.w.sview_len ∧
      pw.w.sview_offset + pw.w.sview_len ≤ S.length ∧
      opsOutLen pw.w.ops = pw.w.tview_len) :
    (prodConcat pws S).length = (pws.map (·.w.tview_len)).sum := by
  induction pws with
  | nil => rfl
  | cons pw0 rest ih =>
      have h0 := hall pw0 (List.mem_cons_self pw0 rest)
      show (prodOut pw0 S ++ prodConcat rest S).length = _
      rw [List.length_append, prodOut_length pw0 S h0.1 h0.2.1 h0.2.2,
        ih (fun pw' hm => hall pw' (List.mem_cons_of_mem pw0 hm))]
      simp

/-! ## The replacement delta rep -/

theorem deltifyChunks_at (wws : List WindowWrite) (ver source : Nat)
    (dg : List Nat) (i : Nat) :
    (deltifyChunks wws ver source dg)[i]?
      = (wws[i]?).map fun ww =>
          { version := ver, string_key := ww.key, size := ww.text_len
            offset := ww.text_off, rep_key := source, checksum := dg } := by
  unfold deltifyChunks
  rw [List.getElem?_map]

theorem deltifyChunks_repkey (wws : List WindowWrite) (ver source : Nat)
    (dg : List Nat) :
    ∀ c ∈ deltifyChunks wws ver source dg, c.rep_key = source := by
  intro c hc
  obtain ⟨ww, _, hww⟩ := List.mem_map.mp hc
  rw [← hww]

theorem deltifyChunks_sameVersion (wws : List WindowWrite)
    (ver source : Nat) (dg : List Nat) :
    sameVersion (deltifyChunks wws ver source dg) := by
  cases wws with
  | nil => trivial
  | cons ww rest =>
      intro c hc
      obtain ⟨ww', _, hww'⟩ := List.mem_map.mp hc
      rw [← hww']

/-- The chunks built from the deltifier's recorded windows are
offset-contiguous from the initial target-view offset. -/
theorem deltifyChunks_contig (ver source : Nat) (dg : List Nat)
    (pws : List ProdWindow)
    (hpos : ∀ pw ∈ pws, 0 < pw.w.tview_len) :
    ∀ (fs : FS) (t : Nat),
    contig (deltifyChunks (writeWindows fs t pws).2 ver source dg) t := by
  induction pws with
  | nil => intro fs t; trivial
  | cons pw rest ih =>
      intro fs t
      rw [writeWindows]
      dsimp only
      refine ⟨rfl, hpos pw (List.mem_cons_self pw rest), ?_⟩
      exact ih (fun pw' hm => hpos pw' (List.mem_cons_of_mem pw hm)) _ _

theorem deltifyChunks_total (ver source : Nat) (dg : List Nat)
    (pws : List ProdWindow) :
    ∀ (fs : FS) (t : Nat),
    totalLen (deltifyChunks (writeWindows fs t pws).2 ver source dg)
      = (pws.map (·.w.tview_len)).sum := by
  induction pws with
  | nil => intro fs t; rfl
  | cons pw rest ih =>
      intro fs t
      rw [writeWindows]
      dsimp only
      show totalLen (_ :: _) = _
      rw [totalLen_cons]
      have h2 := ih
        { strings :=
            (updStr fs fs.next (some (.diff pw.w pw.svndiff_len))).strings,
          reps := (updStr fs fs.next (some (.diff pw.w pw.svndiff_len))).reps,
          next := fs.next + 1 } (t + pw.w.tview_len)
      dsimp only [deltifyChunks] at h2
      rw [h2]
      simp

theorem deltifyChunks_ne_nil (wws : List WindowWrite) (ver source : Nat)
    (dg : List Nat) (h : wws ≠ []) :
    deltifyChunks wws ver source dg ≠ [] := by
  cases wws with
  | nil => exact absurd rfl h
  | cons ww rest => intro hx; cases hx

theorem writeWindows_diffsize (fs : FS) (t : Nat) (pws : List ProdWindow) :
    diffsizeOf (writeWindows fs t pws).2
      = (pws.map (·.svndiff_len)).sum := by
  induction pws generalizing fs t with
  | nil => rfl
  | cons pw rest ih =>
      rw [writeWindows]
      dsimp only
      show (List.map _ (_ :: _)).sum = _
      simp only [List.map_cons, List.sum_cons]
      rw [show (List.map (·.svndiff_len)
          (writeWindows _ _ rest).2).sum
        = diffsizeOf (writeWindows _ _ rest).2 from rfl]
      rw [ih]

/-! ## The branches of the deltifier -/

/-- Unfold `svn_fs__rep_deltify` past the self-check, the two full
reads and the window writes. -/
theorem deltify_unfold (fs : FS) (fuel target source : Nat)
    (pws : List ProdWindow) (ver : Nat) (digest : List Nat)
    (S T : List Nat)
    (hne : target ≠ source)
    (hS : rep_read_all fs fuel source = .ok S)
    (hT : rep_read_all fs fuel target = .ok T) :
    svn_fs__rep_deltify fs fuel target source pws ver (some digest)
      = (do
          let old_rep ← read_rep (writeWindows fs 0 pws).1 target
          match old_rep.contents with
          | .fulltext sk? => do
              let str_key ←
                match sk? with
                | some sk => pure sk
                | none => .error .general
              let old_size ← string_size (writeWindows fs 0 pws).1 str_key
              if old_size ≤ diffsizeOf (writeWindows fs 0 pws).2 then
                .ok (delete_strings (writeWindows fs 0 pws).1
                  ((writeWindows fs 0 pws).2.map (·.key)))
              else
                finishDeltify (writeWindows fs 0 pws).1 target source
                  [str_key] (writeWindows fs 0 pws).2 ver digest
                  old_rep.checksum
          | .delta chunks =>
              finishDeltify (writeWindows fs 0 pws).1 target source
                (chunks.map (·.string_key)) (writeWindows fs 0 pws).2 ver
                digest old_rep.checksum) := by
  simp only [svn_fs__rep_deltify]
  rw [if_neg hne]
  rw [hS, exceptDo_ok, hT, exceptDo_ok]

/-- A string that is present lies below the fresh-key counter. -/
theorem present_lt_next (fs : FS) (hkb : keysBounded fs) (sk : Nat)
    (hp : fs.strings sk ≠ none) : sk < fs.next := by
  by_contra hx
  push_neg at hx
  exact hp (hkb sk hx).1

/-- The fulltext no-op branch: when the old rep is a fulltext whose
string is not larger than the serialized diff, deltification deletes the
new strings again and leaves both tables untouched. -/
theorem deltify_noop (fs : FS) (fuel target source : Nat)
    (pws : List ProdWindow) (ver : Nat) (digest : List Nat)
    (S T bs : List Nat) (old_rep : Rep) (sk : Nat)
    (hne : target ≠ source)
    (hS : rep_read_all fs fuel source = .ok S)
    (hT : rep_read_all fs fuel target = .ok T)
    (hrepT : fs.reps target = some old_rep)
    (hcts : old_rep.contents = .fulltext (some sk))
    (hstr : fs.strings sk = some (.bytes bs))
    (hkb : keysBounded fs)
    (hbig : bs.length ≤ (pws.map (·.svndiff_len)).sum) :
    ∃ fs', svn_fs__rep_deltify fs fuel target source pws ver (some digest)
        = .ok fs' ∧
      fs'.strings = fs.strings ∧ fs'.reps = fs.reps := by
  have hsklt : sk < fs.next :=
    present_lt_next fs hkb sk (by rw [hstr]; exact fun hx => by cases hx)
  have hrepW : (writeWindows fs 0 pws).1.reps target = some old_rep := by
    rw [writeWindows_reps]; exact hrepT
  have hstrW : (writeWindows fs 0 pws).1.strings sk
      = some (.bytes bs) := by
    rw [writeWindows_strings_lt fs 0 pws sk hsklt]; exact hstr
  rw [deltify_unfold fs fuel target source pws ver digest S T hne hS hT]
  simp only [read_rep, hrepW, exceptDo_ok, hcts]
  simp only [exceptPure, exceptDo_ok, string_size, hstrW]
  rw [if_pos (by rw [writeWindows_diffsize]; exact hbig)]
  refine ⟨_, rfl, ?_, ?_⟩
  · funext j
    rw [delete_strings_lookup]
    by_cases hj : j ∈ (writeWindows fs 0 pws).2.map (·.key)
    · rw [if_pos hj]
      obtain ⟨ww, hmem, hkey⟩ := List.mem_map.mp hj
      have hge : fs.next ≤ j := by
        rw [← hkey]; exact writeWindows_keys_ge fs 0 pws ww hmem
      rw [(hkb j hge).1]
    · rw [if_neg hj]
      exact writeWindows_strings_not_key fs 0 pws j hj
  · rw [delete_strings_reps, writeWindows_reps]

/-- The fulltext replacement branch: the old string is strictly larger
than the serialized diff. -/
theorem deltify_fulltext_small (fs : FS) (fuel target source : Nat)
    (pws : List ProdWindow) (ver : Nat) (digest : List Nat)
    (S T bs : List Nat) (old_rep : Rep) (sk : Nat)
    (hne : target ≠ source)
    (hS : rep_read_all fs fuel source = .ok S)
    (hT : rep_read_all fs fuel target = .ok T)
    (hrepT : fs.reps target = some old_rep)
    (hcts : old_rep.contents = .fulltext (some sk))
    (hstr : fs.strings sk = some (.bytes bs))
    (hkb : keysBounded fs)
    (hsmall : (pws.map (·.svndiff_len)).sum < bs.length) :
    svn_fs__rep_deltify fs fuel target source pws ver (some digest)
      = finishDeltify (writeWindows fs 0 pws).1 target source [sk]
          (writeWindows fs 0 pws).2 ver digest old_rep.checksum := by
  have hsklt : sk < fs.next :=
    present_lt_next fs hkb sk (by rw [hstr]; exact fun hx => by cases hx)
  have hrepW : (writeWindows fs 0 pws).1.reps target = some old_rep := by
    rw [writeWindows_reps]; exact hrepT
  have hstrW : (writeWindows fs 0 pws).1.strings sk
      = some (.bytes bs) := by
    rw [writeWindows_strings_lt fs 0 pws sk hsklt]; exact hstr
  rw [deltify_unfold fs fuel target source pws ver digest S T hne hS hT]
  simp only [read_rep, hrepW, exceptDo_ok, hcts]
  simp only [exceptPure, exceptDo_ok, string_size, hstrW]
  rw [if_neg (by rw [writeWindows_diffsize]; omega)]

/-- The delta replacement branch: an old delta rep is replaced
unconditionally. -/
theorem deltify_delta_branch (fs : FS) (fuel target source : Nat)
    (pws : List ProdWindow) (ver : Nat) (digest : List Nat)
    (S T : List Nat) (old_rep : Rep) (chunks : List Chunk)
    (hne : target ≠ source)
    (hS : rep_read_all fs fuel source = .ok S)
    (hT : rep_read_all fs fuel target = .ok T)
    (hrepT : fs.reps target = some old_rep)
    (hcts : old_rep.contents = .delta chunks) :
    svn_fs__rep_deltify fs fuel target source pws ver (some digest)
      = finishDeltify (writeWindows fs 0 pws).1 target source
          (chunks.map (·.string_key)) (writeWindows fs 0 pws).2 ver digest
          old_rep.checksum := by
  have hrepW : (writeWindows fs 0 pws).1.reps target = some old_rep := by
    rw [writeWindows_reps]; exact hrepT
  rw [deltify_unfold fs fuel target source pws ver digest S T hne hS hT]
  simp only [read_rep, hrepW, exceptDo_ok, hcts]

/-- The state `finishDeltify` commits: the target rep record is replaced
by the new delta rep, other reps are untouched, and the original strings
are deleted. -/
theorem finish_state (fsW : FS) (target source : Nat)
    (orig_keys : List Nat) (wws : List WindowWrite) (ver : Nat)
    (digest old_checksum : List Nat) :
    ∃ fs', finishDeltify fsW target source orig_keys wws ver digest
        old_checksum = .ok fs' ∧
      fs'.reps target = some
        { txn_id := none, checksum := old_checksum
          contents := .delta (deltifyChunks wws ver source digest) } ∧
      (∀ k', k' ≠ target → fs'.reps k' = fsW.reps k') ∧
      (∀ j, fs'.strings j
        = if j ∈ orig_keys then none else fsW.strings j) := by
  refine ⟨_, rfl, ?_, ?_, ?_⟩
  · rw [show (delete_strings (write_rep fsW target _) orig_keys).reps
        = (write_rep fsW target _).reps from delete_strings_reps _ _]
    simp [write_rep, updRep]
  · intro k' hk'
    rw [show (delete_strings (write_rep fsW target _) orig_keys).reps
        = (write_rep fsW target _).reps from delete_strings_reps _ _]
    simp [write_rep, updRep, hk']
  · intro j
    rw [delete_strings_lookup]
    rfl

/-- The committed replacement state reconstructs the producer's output:
the new delta rep over `source` is well-formed and yields
`prodConcat pws S`. -/
theorem replace_reconstructs (fs fs'' : FS) (target source : Nat)
    (pws : List ProdWindow) (ver : Nat) (digest : List Nat)
    (S : List Nat) (dS : Nat) (orig_keys : List Nat)
    (old_checksum : List Nat)
    (hS : Reconstructs fs source S dS)
    (hkb : keysBounded fs)
    (hnr : ¬ Reaches fs source target)
    (hdisj : ∀ sk ∈ orig_keys, ¬ UsesStr fs source sk)
    (horig : ∀ sk ∈ orig_keys, sk < fs.next)
    (hpws : pws ≠ [])
    (hprod : ProducerOK fs source S pws)
    (hrt : fs''.reps target = some
      { txn_id := none, checksum := old_checksum
        contents := .delta (deltifyChunks (writeWindows fs 0 pws).2 ver
          source digest) })
    (hro : ∀ k', k' ≠ target →
      fs''.reps k' = (writeWindows fs 0 pws).1.reps k')
    (hstr'' : ∀ j, fs''.strings j
      = if j ∈ orig_keys then none
        else (writeWindows fs 0 pws).1.strings j) :
    Reconstructs fs'' target (prodConcat pws S) (dS + 1) := by
  obtain ⟨hall, halignP⟩ := hprod
  have hall' : ∀ pw ∈ pws,
      opsBounded pw.w.ops pw.w.sview_len ∧
      pw.w.sview_offset + pw.w.sview_len ≤ S.length ∧
      opsOutLen pw.w.ops = pw.w.tview_len := by
    intro pw hm
    obtain ⟨_, hb, ho, _, hsv⟩ := hall pw hm
    exact ⟨hb, hsv, ho⟩
  have hreps_frame : ∀ k', Reaches fs source k' →
      fs''.reps k' = fs.reps k' := by
    intro k' hr
    have hk' : k' ≠ target := fun h => hnr (h ▸ hr)
    rw [hro k' hk', writeWindows_reps]
  have hstrs_frame : ∀ sk, UsesStr fs source sk →
      fs''.strings sk = fs.strings sk := by
    intro sk hu
    have hnotin : sk ∉ orig_keys := fun hin => hdisj sk hin hu
    have hlt : sk < fs.next :=
      present_lt_next fs hkb sk (Reconstructs_str_present fs hS sk hu)
    rw [hstr'' sk, if_neg hnotin, writeWindows_strings_lt fs 0 pws sk hlt]
  have hS'' : Reconstructs fs'' source S dS :=
    Reconstructs_frame fs fs'' hS hreps_frame hstrs_frame
  have hshape : srcShapeOf fs'' source = srcShapeOf fs source := by
    simp only [srcShapeOf, hreps_frame source (Reaches.refl source)]
  have hlenwws : (writeWindows fs 0 pws).2.length = pws.length :=
    writeWindows_len fs 0 pws
  have hwwsne : (writeWindows fs 0 pws).2 ≠ [] := by
    intro hx
    apply hpws
    apply List.length_eq_zero.mp
    rw [← hlenwws, hx]
    rfl
  refine Reconstructs.delta target _
    (deltifyChunks (writeWindows fs 0 pws).2 ver source digest)
    source S (prodConcat pws S) dS hrt rfl
    (deltifyChunks_repkey _ ver source digest) hS'' ?_
  refine ⟨deltifyChunks_ne_nil _ ver source digest hwwsne,
    deltifyChunks_contig ver source digest pws
      (fun pw hm => (hall pw hm).2.2.2.1) fs 0,
    deltifyChunks_sameVersion _ ver source digest, ?_, ?_⟩
  · rw [prodConcat_length pws S hall', deltifyChunks_total]
  · intro j c hc
    rw [deltifyChunks_at] at hc
    obtain ⟨ww, hww, hcdef⟩ := Option.map_eq_some'.mp hc
    have hjlt : j < pws.length := by
      rw [← hlenwws]
      exact (List.getElem?_eq_some_iff.mp hww).1
    obtain ⟨pw, hpw⟩ : ∃ pw, pws[j]? = some pw :=
      ⟨pws[j], List.getElem?_eq_getElem hjlt⟩
    obtain ⟨ww', hww', ht1, ht2, ht3, ht4, ht5⟩ :=
      writeWindows_at fs 0 pws j pw hpw
    rw [hww] at hww'
    injection hww' with hww'
    subst hww'
    subst hcdef
    obtain ⟨hcnt, hb, ho, hp, hsv⟩ :=
      hall pw (List.getElem?_mem hpw)
    refine ⟨pw.w, ?_, hcnt, hb, ?_, hsv, ?_, ?_⟩
    · show getWindow fs'' ww.key = .ok pw.w
      have hnotin : ww.key ∉ orig_keys := by
        intro hin
        have := horig ww.key hin
        omega
      have hstrK : fs''.strings ww.key
          = some (.diff pw.w pw.svndiff_len) := by
        rw [hstr'' ww.key, if_neg hnotin]
        exact ht5
      simp only [getWindow, hstrK]
    · show opsOutLen pw.w.ops = ww.text_len
      rw [ht1]
      exact ho
    · show runOps pw.w.ops _ = sliceL (prodConcat pws S) ww.text_off
        ww.text_len
      rw [ht1, ht3, Nat.zero_add]
      rw [prodConcat_slice pws S hall' j pw hpw]
      rfl
    · show alignOK (srcShapeOf fs'' source) j pw.w
      rw [hshape]
      exact halignP j pw hpw

/-- Committing the replacement and then reading the target back: the new
record carries the inherited checksum and the stream read yields the
producer's output. -/
theorem deltify_commit_reads (fs : FS) (fuel target source : Nat)
    (pws : List ProdWindow) (ver : Nat) (digest : List Nat)
    (S : List Nat) (dS : Nat) (orig_keys : List Nat)
    (old_checksum : List Nat)
    (hS : Reconstructs fs source S dS)
    (hkb : keysBounded fs)
    (hnr : ¬ Reaches fs source target)
    (hdisj : ∀ sk ∈ orig_keys, ¬ UsesStr fs source sk)
    (horig : ∀ sk ∈ orig_keys, sk < fs.next)
    (hpws : pws ≠ [])
    (hprod : ProducerOK fs source S pws)
    (hfS : dS + 1 < fuel)
    (hchk : svn_md5_digests_match (svn_md5 (prodConcat pws S))
      old_checksum = true) :
    ∃ fs'', finishDeltify (writeWindows fs 0 pws).1 target source orig_keys
        (writeWindows fs 0 pws).2 ver digest old_checksum = .ok fs'' ∧
      (∃ rep', fs''.reps target = some rep' ∧
        rep'.checksum = old_checksum) ∧
      rep_read_all fs'' fuel target = .ok (prodConcat pws S) := by
  obtain ⟨fs'', heq, hrt, hro, hstrF⟩ :=
    finish_state (writeWindows fs 0 pws).1 target source orig_keys
      (writeWindows fs 0 pws).2 ver digest old_checksum
  have hrec := replace_reconstructs fs fs'' target source pws ver digest S
    dS orig_keys old_checksum hS hkb hnr hdisj horig hpws hprod hrt hro
    hstrF
  exact ⟨fs'', heq, ⟨_, hrt, rfl⟩,
    rep_read_all_ok fs'' hrec hfS _ hrt hchk⟩

/-- Inversion of `Reconstructs` against the stored rep record. -/
theorem Reconstructs_inv (fs : FS) (k : Nat) (C : List Nat) (d : Nat)
    (h : Reconstructs fs k C d) (rep : Rep)
    (hrepk : fs.reps k = some rep) :
    (∃ sk, rep.contents = .fulltext (some sk) ∧
      fs.strings sk = some (.bytes C)) ∨
    (∃ chunks srcKey S dS, rep.contents = .delta chunks ∧
      (∀ c ∈ chunks, c.rep_key = srcKey) ∧
      Reconstructs fs srcKey S dS ∧
      RepOK fs (srcShapeOf fs srcKey) S chunks C) := by
  cases h with
  | fulltext k2 rep2 sk bs hrep hcts hstr =>
      left
      rw [hrepk] at hrep
      injection hrep with hrep
      subst hrep
      exact ⟨sk, hcts, hstr⟩
  | delta k2 rep2 chunks srcKey S2 C2 d2 hrep hcts hsrcU hS2 hok =>
      right
      rw [hrepk] at hrep
      injection hrep with hrep
      subst hrep
      exact ⟨chunks, srcKey, S2, d2, hcts, hsrcU, hS2, hok⟩

/-- Claim C2: for an immutable fulltext or delta target and a distinct
source, successful deltification preserves the target's reconstructed
content (the full stream read yields the same bytes before and after) and
the target's stored checksum field. -/
theorem claim_C2_deltify_preserves_content (fs : FS)
    (fuel target source : Nat) (pws : List ProdWindow) (ver : Nat)
    (digest : List Nat) (T S : List Nat) (dT dS : Nat)
    (old_rep src_rep : Rep)
    (hT : Reconstructs fs target T dT)
    (hS : Reconstructs fs source S dS)
    (hne : target ≠ source)
    (hrepT : fs.reps target = some old_rep)
    (hrepS : fs.reps source = some src_rep)
    (hchkT : svn_md5_digests_match (svn_md5 T) old_rep.checksum = true)
    (hchkS : svn_md5_digests_match (svn_md5 S) src_rep.checksum = true)
    (hfT : dT < fuel) (hfS : dS + 1 < fuel)
    (hkb : keysBounded fs)
    (hnr : ¬ Reaches fs source target)
    (hdisj : ∀ sk, UsesStr fs source sk → ¬ UsesStr fs target sk)
    (hpws : pws ≠ [])
    (hprod : ProducerOK fs source S pws)
    (hcat : T = prodConcat pws S) :
    ∃ fs', svn_fs__rep_deltify fs fuel target source pws ver (some digest)
        = .ok fs' ∧
      rep_read_all fs fuel target = .ok T ∧
      rep_read_all fs' fuel target = .ok T ∧
      (∃ rep', fs'.reps target = some rep' ∧
        rep'.checksum = old_rep.checksum) := by
  have hdS : dS < fuel := by omega
  have hreadS : rep_read_all fs fuel source = .ok S :=
    rep_read_all_ok fs hS hdS src_rep hrepS hchkS
  have hreadT : rep_read_all fs fuel target = .ok T :=
    rep_read_all_ok fs hT hfT old_rep hrepT hchkT
  rcases Reconstructs_inv fs target T dT hT old_rep hrepT with
    ⟨sk, hcts, hstr⟩ |
    ⟨chunksT, srcKeyT, ST, dST, hcts, hsrcU, hST, hokT⟩
  · by_cases hsz : T.length ≤ (pws.map (·.svndiff_len)).sum
    · obtain ⟨fs', heq, hstrEq, hrepEq⟩ :=
        deltify_noop fs fuel target source pws ver digest S T T old_rep
          sk hne hreadS hreadT hrepT hcts hstr hkb hsz
      refine ⟨fs', heq, hreadT, ?_,
        ⟨old_rep, by rw [hrepEq]; exact hrepT, rfl⟩⟩
      have hT' : Reconstructs fs' target T dT :=
        Reconstructs_frame fs fs' hT
          (fun k' _ => by rw [hrepEq]) (fun sk' _ => by rw [hstrEq])
      exact rep_read_all_ok fs' hT' hfT old_rep
        (by rw [hrepEq]; exact hrepT) hchkT
    · push_neg at hsz
      rw [deltify_fulltext_small fs fuel target source pws ver digest S
        T T old_rep sk hne hreadS hreadT hrepT hcts hstr hkb hsz]
      have husesT : UsesStr fs target sk :=
        ⟨target, old_rep, Reaches.refl target, hrepT, Or.inl hcts⟩
      have hdisj' : ∀ s ∈ [sk], ¬ UsesStr fs source s := by
        intro s hs hu
        rw [List.mem_singleton] at hs
        rw [hs] at hu
        exact hdisj sk hu husesT
      have horig' : ∀ s ∈ [sk], s < fs.next := by
        intro s hs
        rw [List.mem_singleton] at hs
        rw [hs]
        exact present_lt_next fs hkb sk
          (by rw [hstr]; exact fun hx => by cases hx)
      obtain ⟨fs'', heq, hrep'', hread''⟩ :=
        deltify_commit_reads fs fuel target source pws ver digest S dS
          [sk] old_rep.checksum hS hkb hnr hdisj' horig' hpws hprod hfS
          (by rw [← hcat]; exact hchkT)
      rw [hcat] at hreadT ⊢
      exact ⟨fs'', heq, hreadT, hread'', hrep''⟩
  · rw [deltify_delta_branch fs fuel target source pws ver digest S T
      old_rep chunksT hne hreadS hreadT hrepT hcts]
    have hdisj' : ∀ s ∈ chunksT.map (·.string_key),
        ¬ UsesStr fs source s := by
      intro s hs hu
      obtain ⟨c, hcmem, hcs⟩ := List.mem_map.mp hs
      exact hdisj s hu ⟨target, old_rep, Reaches.refl target, hrepT,
        Or.inr ⟨chunksT, c, hcts, hcmem, hcs⟩⟩
    have horig' : ∀ s ∈ chunksT.map (·.string_key), s < fs.next := by
      intro s hs
      obtain ⟨c, hcmem, hcs⟩ := List.mem_map.mp hs
      obtain ⟨j, hj⟩ := List.mem_iff_getElem?.mp hcmem
      obtain ⟨w, hw, _⟩ := hokT.2.2.2.2 j c hj
      refine present_lt_next fs hkb s ?_
      intro hx
      rw [← hcs] at hx
      simp only [getWindow] at hw
      rw [hx] at hw
      cases hw
    obtain ⟨fs'', heq, hrep'', hread''⟩ :=
      deltify_commit_reads fs fuel target source pws ver digest S dS
        (chunksT.map (·.string_key)) old_rep.checksum hS hkb hnr hdisj'
        horig' hpws hprod hfS (by rw [← hcat]; exact hchkT)
    rw [hcat] at hreadT ⊢
    exact ⟨fs'', heq, hreadT, hread'', hrep''⟩

/-- Claim C5: when the old target rep is a fulltext and the serialized
diff is at least as large as the old string, deltification deletes the
freshly written chunk strings, leaves both tables untouched and returns
success; when the old rep is a delta, the replacement proceeds
unconditionally (the new delta rep is written and the old chunk strings
are deleted). -/
theorem claim_C5_deltify_space_guard (fs : FS) (fuel target source : Nat)
    (pws : List ProdWindow) (ver : Nat) (digest : List Nat)
    (S T : List Nat) (old_rep : Rep)
    (hne : target ≠ source)
    (hS : rep_read_all fs fuel source = .ok S)
    (hT : rep_read_all fs fuel target = .ok T)
    (hrepT : fs.reps target = some old_rep)
    (hkb : keysBounded fs) :
    (∀ sk bs, old_rep.contents = .fulltext (some sk) →
      fs.strings sk = some (.bytes bs) →
      bs.length ≤ (pws.map (·.svndiff_len)).sum →
      ∃ fs', svn_fs__rep_deltify fs fuel target source pws ver
          (some digest) = .ok fs' ∧
        fs'.strings = fs.strings ∧ fs'.reps = fs.reps) ∧
    (∀ chunks, old_rep.contents = .delta chunks →
      ∃ fs', svn_fs__rep_deltify fs fuel target source pws ver
          (some digest) = .ok fs' ∧
        fs'.reps target = some
          { txn_id := none, checksum := old_rep.checksum
            contents := .delta (deltifyChunks (writeWindows fs 0 pws).2
              ver source digest) } ∧
        (∀ sk ∈ chunks.map (·.string_key), fs'.strings sk = none)) := by
  constructor
  · intro sk bs hcts hstr hbig
    exact deltify_noop fs fuel target source pws ver digest S T bs old_rep
      sk hne hS hT hrepT hcts hstr hkb hbig
  · intro chunks hcts
    rw [deltify_delta_branch fs fuel target source pws ver digest S T
      old_rep chunks hne hS hT hrepT hcts]
    obtain ⟨fs'', heq, hrt, hro, hstrF⟩ :=
      finish_state (writeWindows fs 0 pws).1 target source
        (chunks.map (·.string_key)) (writeWindows fs 0 pws).2 ver digest
        old_rep.checksum
    refine ⟨fs'', heq, hrt, ?_⟩
    intro sk hsk
    rw [hstrF sk, if_pos hsk]

/-! ## Chain facts about fulltext reps -/

/-- A fulltext rep's chain reaches only the rep itself. -/
theorem Reaches_fulltext (fs : FS) (k k' : Nat) (rep : Rep)
    (sk? : Option Nat) (hrep : fs.reps k = some rep)
    (hcts : rep.contents = .fulltext sk?) (h : Reaches fs k k') :
    k' = k := by
  cases h with
  | refl => rfl
  | step ka kb rep2 chunks c hrep2 hcts2 hmem hnext =>
      rw [hrep] at hrep2
      injection hrep2 with hrep2
      rw [← hrep2] at hcts2
      rw [hcts] at hcts2
      cases hcts2

/-- A fulltext rep uses exactly its own string. -/
theorem UsesStr_fulltext (fs : FS) (k sk0 : Nat) (rep : Rep)
    (hrep : fs.reps k = some rep)
    (hcts : rep.contents = .fulltext (some sk0)) :
    ∀ sk, UsesStr fs k sk → sk = sk0 := by
  intro sk hu
  obtain ⟨k', rep', hr, hrep', hor⟩ := hu
  have hk' : k' = k := Reaches_fulltext fs k k' rep (some sk0) hrep hcts hr
  rw [hk'] at hrep'
  rw [hrep] at hrep'
  injection hrep' with hrep'
  rw [← hrep'] at hor
  rcases hor with hft | ⟨chunks, c, hdl, _, _⟩
  · rw [hcts] at hft
    injection hft with hft
    injection hft with hft
    exact hft.symm
  · rw [hcts] at hdl
    cases hdl

/-! ## Concrete stores exercising the testable properties -/

/-- The delta window of the example chain: copy the first two source
bytes, then insert one literal byte. -/
def exWin : Window :=
  { sview_offset := 0, sview_len := 3, tview_len := 3, src_ops := 1
    ops := [.copySrc 0 2, .insert [99]] }

/-- The single chunk of the example delta rep. -/
def exChunk : Chunk :=
  { version := 0, string_key := 2, size := 3, offset := 0, rep_key := 1
    checksum := [0] }

/-- A store with a fulltext rep `1` (content `[10, 20, 30]`) and a delta
rep `2` over it (content `[10, 20, 99]`). -/
def exFS : FS :=
  { strings := fun k =>
      if k = 1 then some (.bytes [10, 20, 30])
      else if k = 2 then some (.diff exWin 4)
      else none
    reps := fun k =>
      if k = 1 then some
        { txn_id := none, checksum := svn_md5 [10, 20, 30]
          contents := .fulltext (some 1) }
      else if k = 2 then some
        { txn_id := none, checksum := svn_md5 [10, 20, 99]
          contents := .delta [exChunk] }
      else none
    next := 3 }

theorem exFS_rec1 : Reconstructs exFS 1 [10, 20, 30] 0 :=
  Reconstructs.fulltext 1 _ 1 [10, 20, 30] rfl rfl rfl

theorem exFS_rec2 : Reconstructs exFS 2 [10, 20, 99] 1 := by
  refine Reconstructs.delta 2 _ [exChunk] 1 [10, 20, 30] [10, 20, 99] 0
    rfl rfl ?_ exFS_rec1 ?_
  · intro c hc
    rw [List.mem_singleton] at hc
    rw [hc]
    rfl
  · refine ⟨by decide, by decide, by decide, rfl, ?_⟩
    intro j c hc
    cases j with
    | zero =>
        rw [List.getElem?_cons_zero] at hc
        injection hc with hc
        rw [← hc]
        exact ⟨exWin, rfl, rfl, by decide, rfl, by decide, rfl, trivial⟩
    | succ j' =>
        rw [List.getElem?_cons_succ] at hc
        simp at hc

theorem exFS_kb : keysBounded exFS := by
  intro j hj
  have hj' : 3 ≤ j := hj
  constructor
  · show (if j = 1 then _ else if j = 2 then _ else none) = none
    rw [if_neg (by omega), if_neg (by omega)]
  · show (if j = 1 then _ else if j = 2 then _ else none) = none
    rw [if_neg (by omega), if_neg (by omega)]

/-- First chunk of the corrupted rep `3` (version byte 0). -/
def mismChunk0 : Chunk :=
  { version := 0, string_key := 4, size := 3, offset := 0, rep_key := 1
    checksum := [0] }

/-- Second chunk of the corrupted rep `3` (version byte 1). -/
def mismChunk1 : Chunk :=
  { version := 1, string_key := 5, size := 2, offset := 3, rep_key := 1
    checksum := [0] }

/-- A store with a clean fulltext rep `1` and a delta rep `3` whose second
chunk disagrees with its first chunk on the version byte. -/
def mismFS : FS :=
  { strings := fun k =>
      if k = 1 then some (.bytes [10, 20, 30]) else none
    reps := fun k =>
      if k = 1 then some
        { txn_id := none, checksum := svn_md5 [10, 20, 30]
          contents := .fulltext (some 1) }
      else if k = 3 then some
        { txn_id := none, checksum := [0]
          contents := .delta [mismChunk0, mismChunk1] }
      else none
    next := 6 }

theorem mismFS_rec1 : Reconstructs mismFS 1 [10, 20, 30] 0 :=
  Reconstructs.fulltext 1 _ 1 [10, 20, 30] rfl rfl rfl

/-- A store whose delta rep `1` claims 5 bytes but reconstructs to only
one byte (its window inserts a single literal), exercising the short-read
guard of `svn_fs__rep_contents`. -/
def brokeFS : FS :=
  { strings := fun k =>
      if k = 1 then some (.bytes [7])
      else if k = 2 then
        some (.diff { sview_offset := 0, sview_len := 0, tview_len := 1
                      src_ops := 0, ops := [.insert [42]] } 4)
      else none
    reps := fun k =>
      if k = 1 then some
        { txn_id := none, checksum := [0]
          contents := .delta
            [{ version := 0, string_key := 2, size := 5, offset := 0
               rep_key := 2, checksum := [0] }] }
      else if k = 2 then some
        { txn_id := none, checksum := svn_md5 [7]
          contents := .fulltext (some 1) }
      else none
    next := 3 }

/-! ## The claims -/

/-- Claim C1: for any well-formed rep and any in-range request, the range
reader returns exactly the requested slice of the reconstructed fulltext,
whether the rep is a fulltext or a delta whose chain is walked, composed
and applied; the returned byte count is the slice's length, and a request
at or past the end returns zero bytes (EOF). -/
theorem claim_C1_rep_read_range (fs : FS) (k : Nat) (C : List Nat)
    (d : Nat) (h : Reconstructs fs k C d) (fuel : Nat) (hfuel : d < fuel)
    (a n : Nat) :
    (a + n ≤ C.length →
      rep_read_range fs fuel k a n = .ok (sliceL C a n)) ∧
    (C.length ≤ a → rep_read_range fs fuel k a n = .ok []) :=
  ⟨fun hn => rep_read_range_ok fs h hfuel a n hn,
   fun ha => rep_read_range_eof fs h hfuel a n ha⟩

theorem claim_C1_rep_read_range_witness :
    rep_read_range exFS 2 2 1 2 = .ok [20, 99] ∧
    rep_read_range exFS 2 2 3 2 = .ok [] :=
  ⟨(claim_C1_rep_read_range exFS 2 [10, 20, 99] 1 exFS_rec2 2 (by decide)
      1 2).1 (by decide),
   (claim_C1_rep_read_range exFS 2 [10, 20, 99] 1 exFS_rec2 2 (by decide)
      3 2).2 (by decide)⟩

/-- Claim C6: a read over a delta rep whose walk meets a rep whose
`cur`-th chunk disagrees with its first chunk on the version byte fails
with the corruption error naming that rep's key; a read over a rep whose
traversed chunks all share one version (as every well-formed rep's do)
succeeds instead. -/
theorem claim_C6_version_check (fs : FS) (fuel k kr n cur : Nat)
    (offset len coff : Nat) (rep repr : Rep)
    (chunks chunksr : List Chunk) (c0r cr : Chunk)
    (hrep : fs.reps k = some rep) (hcts : rep.contents = .delta chunks)
    (hoff : get_chunk_offset chunks offset = some (cur, coff))
    (hreach : ReachesAt fs cur k kr n)
    (hrepr : fs.reps kr = some repr)
    (hctsr : repr.contents = .delta chunksr)
    (h0r : chunksr[0]? = some c0r) (hcr : chunksr[cur]? = some cr)
    (hver : c0r.version ≠ cr.version) (hfuel : n < fuel) :
    rep_read_range fs fuel k offset len
      = .error (.corrupt
          "diff version inconsistencies in representation" kr) ∧
    (∀ (k2 : Nat) (C : List Nat) (d a len2 fuel2 : Nat),
      Reconstructs fs k2 C d → d < fuel2 → a + len2 ≤ C.length →
      rep_read_range fs fuel2 k2 a len2 = .ok (sliceL C a len2)) := by
  constructor
  · have hw := walk_mismatch fs cur hreach repr chunksr c0r cr hrepr
      hctsr h0r hcr hver rep chunks hrep hcts fuel hfuel []
    simp only [rep_read_range, read_rep, hrep, exceptDo_ok, hcts, hoff]
    rw [hw]
    rfl
  · intro k2 C d a len2 fuel2 h2 hd2 hlen2
    exact rep_read_range_ok fs h2 hd2 a len2 hlen2

theorem claim_C6_version_check_witness :
    rep_read_range mismFS 1 3 3 2
      = .error (.corrupt
          "diff version inconsistencies in representation" 3) ∧
    rep_read_range mismFS 1 1 0 3 = .ok [10, 20, 30] := by
  have h := claim_C6_version_check mismFS 1 3 3 0 1 3 2 0 _ _
    [mismChunk0, mismChunk1] [mismChunk0, mismChunk1] mismChunk0
    mismChunk1 rfl rfl (by decide) (ReachesAt.refl 3) rfl rfl (by decide)
    (by decide) (by decide) (by decide)
  exact ⟨h.1, h.2 1 [10, 20, 30] 0 0 3 1 mismFS_rec1 (by decide)
    (by decide)⟩

/-- Claim C8: a read through the read stream whose rep key is absent
returns zero bytes without error while the cumulative offset is zero, and
fails with `RepChanged` once the offset is positive. -/
theorem claim_C8_null_rep_read (fs : FS) (fuel : Nat) (b : RepReadBaton)
    (len : Nat) (hb : b.rep_key = none) :
    (b.offset = 0 → txn_body_read_rep fs fuel b len = .ok ([], b)) ∧
    (0 < b.offset →
      txn_body_read_rep fs fuel b len = .error .repChanged) := by
  constructor
  · intro h0
    simp only [txn_body_read_rep, hb]
    rw [if_neg (by omega)]
  · intro hpos
    simp only [txn_body_read_rep, hb]
    rw [if_pos hpos]

theorem claim_C8_null_rep_read_witness :
    txn_body_read_rep exFS 1 ⟨none, 0, [], 0, false⟩ 5
      = .ok ([], ⟨none, 0, [], 0, false⟩) ∧
    txn_body_read_rep exFS 1 ⟨none, 7, [], 0, false⟩ 5
      = .error .repChanged :=
  ⟨(claim_C8_null_rep_read exFS 1 ⟨none, 0, [], 0, false⟩ 5 rfl).1 rfl,
   (claim_C8_null_rep_read exFS 1 ⟨none, 7, [], 0, false⟩ 5 rfl).2
     (by decide)⟩

/-- Claim C9: deltifying any representation against itself fails
immediately with the corruption error, before any stream is opened or any
string is written (the result is the bare error, the store untouched). -/
theorem claim_C9_self_deltify (fs : FS) (fuel k : Nat)
    (pws : List ProdWindow) (ver : Nat) (digest? : Option (List Nat)) :
    svn_fs__rep_deltify fs fuel k k pws ver digest?
      = .error (.corrupt
          "svn_fs__rep_deltify: attempt to deltify a representation against itself"
          k) := by
  simp only [svn_fs__rep_deltify]
  rw [if_pos trivial]

/-- Claim C10: the whole-content read verifies its result: on a
well-formed rep the short-read guard passes and the outcome is the
reconstructed content or a checksum-mismatch corruption error according
to the stored checksum; and whenever the range read does return fewer
bytes than the reported size, the read fails with the failure-reading
corruption error. -/
theorem claim_C10_rep_contents_verified (fs : FS) (k : Nat)
    (C : List Nat) (d : Nat) (h : Reconstructs fs k C d) (fuel : Nat)
    (hfuel : d < fuel) (hmax : C.length ≤ SVN_MAX_OBJECT_SIZE)
    (rep : Rep) (hrep : fs.reps k = some rep) :
    (svn_fs__rep_contents fs fuel k
      = if svn_md5_digests_match (svn_md5 C) rep.checksum then .ok C
        else .error
          (.corrupt "svn_fs__rep_contents: checksum mismatch on rep" k)) ∧
    (∀ (fs2 : FS) (k2 sz fuel2 : Nat) (bytes : List Nat),
      svn_fs__rep_contents_size fs2 k2 = .ok sz →
      sz ≤ SVN_MAX_OBJECT_SIZE →
      rep_read_range fs2 fuel2 k2 0 sz = .ok bytes →
      bytes.length ≠ sz →
      svn_fs__rep_contents fs2 fuel2 k2 = .error
        (.corrupt "svn_fs__rep_contents: failure reading rep" k2)) := by
  constructor
  · exact rep_contents_ok fs h hfuel hmax rep hrep
  · intro fs2 k2 sz fuel2 bytes hsz hle hread hne
    simp only [svn_fs__rep_contents, hsz, exceptDo_ok]
    rw [if_neg (by omega)]
    rw [hread, exceptDo_ok]
    rw [if_pos hne]

theorem claim_C10_rep_contents_verified_witness :
    svn_fs__rep_contents exFS 2 2 = .ok [10, 20, 99] ∧
    svn_fs__rep_contents brokeFS 2 1 = .error
      (.corrupt "svn_fs__rep_contents: failure reading rep" 1) := by
  have h := claim_C10_rep_contents_verified exFS 2 [10, 20, 99] 1
    exFS_rec2 2 (by decide) (by decide) _ rfl
  refine ⟨?_, h.2 brokeFS 1 5 2 [42] rfl (by decide) rfl (by decide)⟩
  rw [h.1]
  rfl

/-- An empty store for exercising the fresh-rep path of
`svn_fs__get_mutable_rep`. -/
def c7FS : FS :=
  { strings := fun _ => none, reps := fun _ => none, next := 0 }

/-- A store with an immutable rep `0` and a rep `1` mutable under
transaction `5`. -/
def c7bFS : FS :=
  { strings := fun k =>
      if k = 0 then some (.bytes [7])
      else if k = 1 then some (.bytes [8]) else none
    reps := fun k =>
      if k = 0 then some
        { txn_id := none, checksum := svn_md5 [7]
          contents := .fulltext (some 0) }
      else if k = 1 then some
        { txn_id := some 5, checksum := svn_md5 [8]
          contents := .fulltext (some 1) }
      else none
    next := 2 }

theorem c7bFS_kb : keysBounded c7bFS := by
  intro j hj
  have hj' : 2 ≤ j := hj
  constructor
  · show (if j = 0 then _ else if j = 1 then _ else none) = none
    rw [if_neg (by omega), if_neg (by omega)]
  · show (if j = 0 then _ else if j = 1 then _ else none) = none
    rw [if_neg (by omega), if_neg (by omega)]

/-- Counterexample to claim C7 as stated: the checksum the fallthrough
path stores in the fresh rep is the MD5 digest of the empty string, not
the zero-filled "not yet computed" sentinel. -/
theorem claim_C7_zero_sentinel_counterexample :
    ∃ fs' new_key rep,
      svn_fs__get_mutable_rep c7FS none 5 = .ok (fs', new_key) ∧
      fs'.reps new_key = some rep ∧
      rep.checksum = svn_md5_empty_string_digest ∧
      rep.checksum ≠ zeroDigest :=
  ⟨_, _, _, rfl, rfl, rfl, by decide⟩

/-- Claim C7 (amended): `get_mutable_rep` returns the base key unchanged
when the base rep is mutable under the transaction; otherwise — also when
no base key is given — it allocates a fresh empty fulltext rep owned by
the transaction, backed by a newly allocated empty string, whose checksum
field is the MD5 digest of the empty string (not the zero sentinel). -/
theorem claim_C7_get_mutable_rep (fs : FS) (rep_key txn_id2 : Nat)
    (rep : Rep) (hrep : fs.reps rep_key = some rep)
    (hkb : keysBounded fs) :
    (rep_is_mutable rep txn_id2 = true →
      svn_fs__get_mutable_rep fs (some rep_key) txn_id2
        = .ok (fs, rep_key)) ∧
    (rep_is_mutable rep txn_id2 = false →
      ∃ fs' new_key new_str,
        svn_fs__get_mutable_rep fs (some rep_key) txn_id2
          = .ok (fs', new_key) ∧
        fs.reps new_key = none ∧ fs.strings new_str = none ∧
        fs'.strings new_str = some (.bytes []) ∧
        fs'.reps new_key = some
          { txn_id := some txn_id2
            checksum := svn_md5_empty_string_digest
            contents := .fulltext (some new_str) }) ∧
    (∃ fs' new_key new_str,
      svn_fs__get_mutable_rep fs none txn_id2 = .ok (fs', new_key) ∧
      fs.reps new_key = none ∧ fs.strings new_str = none ∧
      fs'.strings new_str = some (.bytes []) ∧
      fs'.reps new_key = some
        { txn_id := some txn_id2
          checksum := svn_md5_empty_string_digest
          contents := .fulltext (some new_str) }) := by
  have hfresh : ∃ fs' new_key new_str,
      svn_fs__get_mutable_rep.mkFresh fs txn_id2 = .ok (fs', new_key) ∧
      fs.reps new_key = none ∧ fs.strings new_str = none ∧
      fs'.strings new_str = some (.bytes []) ∧
      fs'.reps new_key = some
        { txn_id := some txn_id2
          checksum := svn_md5_empty_string_digest
          contents := .fulltext (some new_str) } := by
    refine ⟨_, fs.next + 1, fs.next, rfl,
      (hkb (fs.next + 1) (by omega)).2, (hkb fs.next (le_refl _)).1,
      ?_, ?_⟩
    · show (updStr fs fs.next (some (.bytes []))).strings fs.next
        = some (.bytes [])
      simp [updStr]
    · show (if fs.next + 1 = fs.next + 1 then _ else _) = _
      rw [if_pos rfl]
      rfl
  refine ⟨?_, ?_, ?_⟩
  · intro hmut
    simp only [svn_fs__get_mutable_rep, read_rep, hrep, exceptDo_ok, hmut]
    rw [if_pos trivial]
  · intro hmut
    simp only [svn_fs__get_mutable_rep, read_rep, hrep, exceptDo_ok, hmut]
    rw [if_neg (by exact fun hx => by cases hx)]
    exact hfresh
  · simp only [svn_fs__get_mutable_rep]
    exact hfresh

theorem claim_C7_get_mutable_rep_witness :
    svn_fs__get_mutable_rep c7bFS (some 1) 5 = .ok (c7bFS, 1) ∧
    (∃ fs' new_key new_str,
      svn_fs__get_mutable_rep c7bFS (some 0) 5 = .ok (fs', new_key) ∧
      c7bFS.reps new_key = none ∧ c7bFS.strings new_str = none ∧
      fs'.strings new_str = some (.bytes []) ∧
      fs'.reps new_key = some
        { txn_id := some 5
          checksum := svn_md5_empty_string_digest
          contents := .fulltext (some new_str) }) :=
  ⟨(claim_C7_get_mutable_rep c7bFS 1 5
      { txn_id := some 5, checksum := svn_md5 [8]
        contents := .fulltext (some 1) } rfl c7bFS_kb).1 rfl,
   (claim_C7_get_mutable_rep c7bFS 0 5
      { txn_id := none, checksum := svn_md5 [7]
        contents := .fulltext (some 0) } rfl c7bFS_kb).2.1 rfl⟩

/-- The immutable rep of the store exercising the `rep_write` bug. -/
def c4Rep : Rep :=
  { txn_id := none, checksum := svn_md5 [7]
    contents := .fulltext (some 1) }

/-- A store with the immutable fulltext rep `1` backed by string `1`. -/
def c4FS : FS :=
  { strings := fun k => if k = 1 then some (.bytes [7]) else none
    reps := fun k => if k = 1 then some c4Rep else none
    next := 2 }

/-- Divergence for claim C4: the source constructs the
`SVN_ERR_FS_REP_NOT_MUTABLE` error but does not return it, so appending
through `rep_write` to a rep that is not mutable under the caller's
transaction succeeds and mutates the rep's backing string instead of
failing with `RepNotMutable`. -/
theorem claim_C4_rep_write_not_mutable :
    ∃ fs', rep_write c4FS 1 [9] 7 = .ok fs' ∧
      rep_is_mutable c4Rep 7 = false ∧
      c4FS.reps 1 = some c4Rep ∧
      c4FS.strings 1 = some (.bytes [7]) ∧
      fs'.strings 1 = some (.bytes [7, 9]) :=
  ⟨_, rfl, rfl, rfl, rfl, rfl⟩

/-- The windows the producer oracle hands the deltifier in the round-trip
example: a single window inserting the target bytes. -/
def c3Pws : List ProdWindow :=
  [{ w := { sview_offset := 0, sview_len := 0, tview_len := 2
            src_ops := 0, ops := [.insert [5, 6]] }
     svndiff_len := 1 }]

/-- A store with fulltext reps `1` (content `[7, 8]`, the deltification
source) and `2` (content `[5, 6]`, the deltification target). -/
def c3FS : FS :=
  { strings := fun k =>
      if k = 1 then some (.bytes [7, 8])
      else if k = 2 then some (.bytes [5, 6])
      else none
    reps := fun k =>
      if k = 1 then some
        { txn_id := none, checksum := svn_md5 [7, 8]
          contents := .fulltext (some 1) }
      else if k = 2 then some
        { txn_id := none, checksum := svn_md5 [5, 6]
          contents := .fulltext (some 2) }
      else none
    next := 3 }

/-- Divergence for claim C3: undeltifying the delta rep produced by a
successful deltification restores the content but not the checksum — the
source builds the fulltext rep with a NULL checksum (the `### todo` of
issue 649), so the zero sentinel replaces the original digest. -/
theorem claim_C3_roundtrip_checksum_lost :
    ∃ fs1 fs2,
      svn_fs__rep_deltify c3FS 3 2 1 c3Pws 0 (some [9]) = .ok fs1 ∧
      svn_fs__rep_undeltify fs1 3 2 = .ok fs2 ∧
      rep_read_all c3FS 3 2 = .ok [5, 6] ∧
      rep_read_all fs2 3 2 = .ok [5, 6] ∧
      (c3FS.reps 2).map (·.checksum) = some (svn_md5 [5, 6]) ∧
      (fs2.reps 2).map (·.checksum) = some zeroDigest ∧
      zeroDigest ≠ svn_md5 [5, 6] :=
  ⟨_, _, rfl, rfl, rfl, rfl, rfl, rfl, by decide⟩

/-- A store with two fulltext reps: `1` (content `[7, 8]`, the source)
and `2` (content `[9]`, the target). -/
def exFS2 : FS :=
  { strings := fun k =>
      if k = 1 then some (.bytes [7, 8])
      else if k = 2 then some (.bytes [9])
      else none
    reps := fun k =>
      if k = 1 then some
        { txn_id := none, checksum := svn_md5 [7, 8]
          contents := .fulltext (some 1) }
      else if k = 2 then some
        { txn_id := none, checksum := svn_md5 [9]
          contents := .fulltext (some 2) }
      else none
    next := 3 }

/-- The producer's single window for deltifying `[9]` against `[7, 8]`:
one literal insert whose serialization is larger than the target. -/
def exPws2 : List ProdWindow :=
  [{ w := { sview_offset := 0, sview_len := 0, tview_len := 1
            src_ops := 0, ops := [.insert [9]] }
     svndiff_len := 5 }]

theorem exFS2_rec1 : Reconstructs exFS2 1 [7, 8] 0 :=
  Reconstructs.fulltext 1 _ 1 [7, 8] rfl rfl rfl

theorem exFS2_rec2 : Reconstructs exFS2 2 [9] 0 :=
  Reconstructs.fulltext 2 _ 2 [9] rfl rfl rfl

theorem exFS2_kb : keysBounded exFS2 := by
  intro j hj
  have hj' : 3 ≤ j := hj
  constructor
  · show (if j = 1 then _ else if j = 2 then _ else none) = none
    rw [if_neg (by omega), if_neg (by omega)]
  · show (if j = 1 then _ else if j = 2 then _ else none) = none
    rw [if_neg (by omega), if_neg (by omega)]

theorem exFS2_not_reach : ¬ Reaches exFS2 1 2 := by
  intro h
  have := Reaches_fulltext exFS2 1 2
    { txn_id := none, checksum := svn_md5 [7, 8]
      contents := .fulltext (some 1) } (some 1) rfl rfl h
  omega

theorem exFS2_disj : ∀ sk, UsesStr exFS2 1 sk → ¬ UsesStr exFS2 2 sk := by
  intro sk hu1 hu2
  have h1 := UsesStr_fulltext exFS2 1 1
    { txn_id := none, checksum := svn_md5 [7, 8]
      contents := .fulltext (some 1) } rfl rfl sk hu1
  have h2 := UsesStr_fulltext exFS2 2 2
    { txn_id := none, checksum := svn_md5 [9]
      contents := .fulltext (some 2) } rfl rfl sk hu2
  omega

theorem exFS2_prod : ProducerOK exFS2 1 [7, 8] exPws2 := by
  constructor
  · intro pw hm
    simp only [exPws2, List.mem_singleton] at hm
    rw [hm]
    exact ⟨rfl, by decide, rfl, by decide, by decide⟩
  · intro i pw hi
    exact trivial

theorem claim_C2_witness :
    ∃ fs', svn_fs__rep_deltify exFS2 2 2 1 exPws2 0 (some [9])
        = .ok fs' ∧
      rep_read_all exFS2 2 2 = .ok [9] ∧
      rep_read_all fs' 2 2 = .ok [9] ∧
      (∃ rep', fs'.reps 2 = some rep' ∧ rep'.checksum = svn_md5 [9]) :=
  claim_C2_deltify_preserves_content exFS2 2 2 1 exPws2 0 [9] [9] [7, 8]
    0 0
    { txn_id := none, checksum := svn_md5 [9]
      contents := .fulltext (some 2) }
    { txn_id := none, checksum := svn_md5 [7, 8]
      contents := .fulltext (some 1) }
    exFS2_rec2 exFS2_rec1 (by decide) rfl rfl (by decide) (by decide)
    (by decide) (by decide) exFS2_kb exFS2_not_reach exFS2_disj
    (by decide) exFS2_prod rfl

/-- The producer's window list for the C5 witness (its content is
irrelevant to the delta branch exercised). -/
def exPws5 : List ProdWindow :=
  [{ w := exWin, svndiff_len := 2 }]

theorem claim_C5_witness :
    ∃ fs', svn_fs__rep_deltify exFS 2 2 1 exPws5 0 (some [9])
        = .ok fs' ∧
      fs'.reps 2 = some
        { txn_id := none, checksum := svn_md5 [10, 20, 99]
          contents := .delta (deltifyChunks (writeWindows exFS 0 exPws5).2
            0 1 [9]) } ∧
      (∀ sk ∈ [exChunk].map (·.string_key), fs'.strings sk = none) :=
  (claim_C5_deltify_space_guard exFS 2 2 1 exPws5 0 [9] [10, 20, 30]
    [10, 20, 99]
    { txn_id := none, checksum := svn_md5 [10, 20, 99]
      contents := .delta [exChunk] }
    (by decide) rfl rfl rfl exFS_kb).2 [exChunk] rfl

end SvnFS
